import Mathlib

/-!
# Verification of the `tarhelper` directory-tree archiver

This development gives a shallow embedding of `tarhelper/tar.go` (the
`Tar` archiver: traversal, entry classification, hard-link tracking,
symlink resolution, exclusion filtering, compression selection) and
settles the specification claims against it.

Paths are modelled as `List Char` over the unix separator `/`.  The
standard-library path helpers used by the Go code (`path/filepath`'s
`Clean`, `Join`, `Dir`, `Base`, `IsAbs`, `Abs`, `Rel`, `Match` and
`strings.Contains` / `strings.HasPrefix`) are embedded as executable
Lean functions mirroring the Go sources (unix rules).
-/

namespace Tarhelper

/-- Paths and patterns are lists of characters. -/
abbrev Str := List Char

/-- The unix path separator. -/
def sep : Char := '/'

/-- Shorthand turning a string literal into the `List Char` representation. -/
def str (s : String) : Str := s.data

/-- Models `strings.Contains s sub`: some drop of `s` has `sub` as a prefix. -/
def strContains (s sub : Str) : Bool :=
  (List.range (s.length + 1)).any fun i => sub.isPrefixOf (s.drop i)

/-- Split a path at every separator.  `splitSlash "a/b" = ["a","b"]`,
`splitSlash "/a" = ["", "a"]`, `splitSlash "" = [""]`. -/
def splitSlash : Str → List Str
  | [] => [[]]
  | c :: rest =>
    if c = sep then [] :: splitSlash rest
    else (splitSlash rest).modifyHead (c :: ·)

/-- The raw path elements of a path: the separator-split pieces with empty
and `"."` pieces discarded, exactly the elements `filepath.Clean` walks. -/
def segsOf (s : Str) : List Str :=
  (splitSlash s).filter fun e => ¬(e = [] ∨ e = str ".")

/-- One step of `filepath.Clean`'s element processing, on a reversed stack of
output elements (head = most recent).  A `".."` pops a poppable element,
is dropped at the top of a rooted path, and is kept otherwise. -/
def normStep (rooted : Bool) (st : List Str) (e : Str) : List Str :=
  if e = str ".." then
    match st with
    | top :: rest => if top = str ".." then e :: st else rest
    | [] => if rooted then [] else [e]
  else e :: st

/-- Fold `normStep` over a list of path elements. -/
def normFold (rooted : Bool) (st : List Str) (es : List Str) : List Str :=
  es.foldl (normStep rooted) st

/-- Join path elements with separators (no leading/trailing separator). -/
def joinSegs : List Str → Str
  | [] => []
  | [e] => e
  | e :: rest => e ++ sep :: joinSegs rest

/-- Models Go `filepath.Clean` (unix): shortest lexical equivalent path. -/
def clean (s : Str) : Str :=
  if s = [] then str "."
  else if s.head? = some sep then sep :: joinSegs (normFold true [] (segsOf s)).reverse
  else if (normFold false [] (segsOf s)).reverse = [] then str "."
  else joinSegs (normFold false [] (segsOf s)).reverse

/-- Models Go `filepath.Join(a, b)`: empty components are skipped before the
first non-empty one, the rest are glued with separators, and the result is
cleaned.  `Join("", "") = ""`. -/
def goJoin2 (a b : Str) : Str :=
  if a = [] then (if b = [] then [] else clean b)
  else clean (a ++ sep :: b)

/-- Models Go `filepath.Join(a, b, c)` (same skipping/cleaning rules). -/
def goJoin3 (a b c : Str) : Str :=
  if a = [] then goJoin2 b c
  else clean (a ++ sep :: b ++ sep :: c)

/-- The portion of `p` up to and including its last separator
(empty when `p` has no separator). -/
def upToLastSep (p : Str) : Str :=
  (p.reverse.dropWhile (· ≠ sep)).reverse

/-- Models Go `filepath.Dir`: everything before the final element, cleaned;
`"."` when `p` holds no separator. -/
def filepathDir (p : Str) : Str :=
  clean (upToLastSep p)

/-- Models Go `filepath.Base`: the final element after trailing separators
are removed; `"."` for the empty path and `"/"` for all-separator paths. -/
def filepathBase (p : Str) : Str :=
  if p = [] then str "."
  else
    let q := (p.reverse.dropWhile (· = sep)).reverse
    let r := (q.reverse.takeWhile (· ≠ sep)).reverse
    if r = [] then [sep] else r

/-- Models Go `filepath.IsAbs` (unix): the path starts with a separator. -/
def isAbs (p : Str) : Bool :=
  p.head? = some sep

/-- Models Go `filepath.Abs` with the working directory passed explicitly:
an absolute path is cleaned, a relative one is joined onto `cwd`. -/
def goAbs (cwd p : Str) : Str :=
  if isAbs p then clean p else goJoin2 cwd p

/-- The element-comparison loop of Go `filepath.Rel`: walk `b` and `t`
separator-element by separator-element while the elements agree and return
the remainders at the first disagreement.  Each iteration consumes at
least one character, so `goRel`'s fuel (sum of lengths plus one) never
runs out; Go's loop diverges when both strings are exhausted with equal
final elements (unreachable from `goRel`, which filters out equal paths
first). -/
def relLoop : Nat → Str → Str → Option (Str × Str)
  | 0, _, _ => none
  | fuel + 1, b, t =>
    let be := b.takeWhile (· ≠ sep)
    let te := t.takeWhile (· ≠ sep)
    if be = te then
      let b1 := b.drop be.length
      let t1 := t.drop te.length
      let b2 := if b1 = [] then b1 else b1.tail
      let t2 := if t1 = [] then t1 else t1.tail
      relLoop fuel b2 t2
    else some (b, t)

/-- Models Go `filepath.Rel(basepath, targpath)` (unix): a relative path
from `basepath` to `targpath`, or `none` where Go reports an error. -/
def goRel (basepath targpath : Str) : Option Str :=
  let base := clean basepath
  let targ := clean targpath
  if targ = base then some (str ".")
  else
    let base := if base = str "." then [] else base
    if (base.head? = some sep) ≠ (targ.head? = some sep) then none
    else
      match relLoop (base.length + targ.length + 1) base targ with
      | none => none
      | some (brem, trem) =>
        if brem.takeWhile (· ≠ sep) = str ".." then none
        else if brem = [] then some trem
        else
          let seps := brem.count sep
          let up := str ".." ++ (List.replicate seps (sep :: str "..")).flatten
          some (if trem = [] then up else up ++ sep :: trem)

/-! ## The glob matcher

Embeds Go `path/filepath.Match` (unix): `scanChunk`, `matchChunk`,
`getEsc` and the main pattern loop.  `none`/`true` error components stand
for `ErrBadPattern`. -/

/-- Models Go `getEsc`: read one (possibly escaped) character of a
character class.  `none` is `ErrBadPattern`. -/
def getEsc (chunk : Str) : Option (Char × Str) :=
  match chunk with
  | [] => none
  | c :: rest =>
    if c = '-' ∨ c = ']' then none
    else if c = '\\' then
      match rest with
      | [] => none
      | d :: rest2 => if rest2 = [] then none else some (d, rest2)
    else if rest = [] then none else some (c, rest)

/-- The range-parsing loop of Go `matchChunk`'s `[` case.  `r` is the rune
being matched (`NUL` in failed mode, as in Go), `started` is Go's
`nrange > 0`, and the result is the remaining chunk plus whether any range
matched.  `none` is `ErrBadPattern`.  Each iteration consumes at least one
chunk character, so the fuel (chunk length plus one) never runs out. -/
def parseRanges : Nat → Char → Bool → Bool → Str → Option (Str × Bool)
  | 0, _, _, _, _ => none
  | fuel + 1, r, mtch, started, chunk =>
    if chunk.head? = some ']' ∧ started then some (chunk.tail, mtch)
    else
      match getEsc chunk with
      | none => none
      | some (lo, ch1) =>
        let hiCh : Option (Char × Str) :=
          if ch1.head? = some '-' then getEsc ch1.tail else some (lo, ch1)
        match hiCh with
        | none => none
        | some (hi, ch2) =>
          let mtch2 := mtch || (decide (lo ≤ r) && decide (r ≤ hi))
          parseRanges fuel r mtch2 true ch2

/-- Models Go `matchChunk` (modern form, with the `failed` flag so that a
malformed chunk is diagnosed even after the match has failed).  Result:
`none` = `ErrBadPattern`; `some none` = no match; `some (some rest)` =
matched, `rest` is the unconsumed suffix of `s`.  Each iteration consumes
at least one chunk character, so the fuel never runs out when instantiated
with the chunk length plus one. -/
def matchChunkGo : Nat → Str → Str → Bool → Option (Option Str)
  | 0, _, _, _ => none
  | fuel + 1, chunk, s, failed0 =>
    match chunk with
    | [] => if failed0 then some none else some (some s)
    | c :: crest =>
      let failed := failed0 || s.isEmpty
      if c = '[' then
        let r : Char := if failed then Char.ofNat 0 else s.headD (Char.ofNat 0)
        let s1 := if failed then s else s.tail
        let negCh : Bool × Str :=
          match crest with
          | '^' :: t => (true, t)
          | _ => (false, crest)
        match parseRanges (negCh.2.length + 1) r false false negCh.2 with
        | none => none
        | some (ch2, mtch) =>
          let failed2 := failed || (mtch == negCh.1)
          matchChunkGo fuel ch2 s1 failed2
      else if c = '?' then
        if failed then matchChunkGo fuel crest s failed
        else if s.head? = some sep then matchChunkGo fuel crest s.tail true
        else matchChunkGo fuel crest s.tail failed
      else if c = '\\' then
        match crest with
        | [] => none
        | d :: crest2 =>
          if failed then matchChunkGo fuel crest2 s failed
          else if s.head? = some d then matchChunkGo fuel crest2 s.tail failed
          else matchChunkGo fuel crest2 s.tail true
      else
        if failed then matchChunkGo fuel crest s failed
        else if s.head? = some c then matchChunkGo fuel crest s.tail failed
        else matchChunkGo fuel crest s.tail true

/-- Models Go `matchChunk chunk s` with fresh `failed = false` and enough
fuel for the whole chunk. -/
def matchChunk (chunk s : Str) : Option (Option Str) :=
  matchChunkGo (chunk.length + 1) chunk s false

/-- The leading-star stripping of Go `scanChunk`. -/
def dropStars : Str → Bool × Str
  | [] => (false, [])
  | c :: rest => if c = '*' then (true, (dropStars rest).2) else (false, c :: rest)

/-- The scan loop of Go `scanChunk`: split off the pattern chunk up to the
next unbracketed `*`. -/
def scanBody (inrange : Bool) : Str → Str × Str
  | [] => ([], [])
  | c :: rest =>
    if c = '\\' then
      match rest with
      | [] => ([c], [])
      | d :: rest2 =>
        let p := scanBody inrange rest2
        (c :: d :: p.1, p.2)
    else if c = '[' then
      let p := scanBody true rest
      (c :: p.1, p.2)
    else if c = ']' then
      let p := scanBody false rest
      (c :: p.1, p.2)
    else if c = '*' && !inrange then ([], c :: rest)
    else
      let p := scanBody inrange rest
      (c :: p.1, p.2)

/-- Models Go `scanChunk`: leading stars, first chunk, remaining pattern. -/
def scanChunk (pattern : Str) : Bool × Str × Str :=
  let p := dropStars pattern
  let q := scanBody false p.2
  (p.1, q.1, q.2)

mutual

/-- The main loop of Go `filepath.Match`.  Result is `(matched, errored)`.
The fuel is consumed once per loop step of either loop; `goMatch` supplies
more fuel than the total number of steps (each step consumes a pattern
chunk or a name character). -/
def matchLoop : Nat → Str → Str → Bool × Bool
  | 0, _, _ => (false, false)
  | fuel + 1, pattern, name =>
    if pattern = [] then (name.isEmpty, false)
    else
      let sc := scanChunk pattern
      let star := sc.1
      let chunk := sc.2.1
      let rest := sc.2.2
      if star && chunk.isEmpty then (name.all (· ≠ sep), false)
      else
        match matchChunk chunk name with
        | none => (false, true)
        | some none =>
          if star then starLoop fuel chunk rest name else (false, false)
        | some (some t) =>
          if t.isEmpty || !rest.isEmpty then matchLoop fuel rest t
          else if star then starLoop fuel chunk rest name
          else (false, false)

/-- The `star` retry loop of Go `filepath.Match`: try the chunk at every
non-separator position of `name`. -/
def starLoop : Nat → Str → Str → Str → Bool × Bool
  | 0, _, _, _ => (false, false)
  | fuel + 1, chunk, rest, nm =>
    match nm with
    | [] => (false, false)
    | c :: nrest =>
      if c = sep then (false, false)
      else
        match matchChunk chunk nrest with
        | none => (false, true)
        | some (some t) =>
          if rest.isEmpty && !t.isEmpty then starLoop fuel chunk rest nrest
          else matchLoop fuel rest t
        | some none => starLoop fuel chunk rest nrest

end

/-- Models Go `filepath.Match pattern name` on unix:
`(matched, errored)` where `errored` stands for `ErrBadPattern`. -/
def goMatch (pattern name : Str) : Bool × Bool :=
  matchLoop (pattern.length + name.length + 2) pattern name

/-! ## The archiver model

Embeds the `Tar` archiver of `tarhelper/tar.go`.  Filesystem state is an
explicit tree (`FSTree`); each node carries the metadata the Go code reads
through `os.FileInfo` / `syscall.Stat_t` plus the outcomes of the
filesystem calls made while processing it (`Readlink`, the device
re-`Stat`, `ReadDir`).  The tar encoder and gzip writer are external
collaborators consumed through a write-header/write-bytes contract; a run
is therefore modelled as the list of observable events it performs on
them, plus the hard-link table and the error result. -/

/-- The file classes distinguished by `processEntry`'s mode switch.
`device` covers Go's `ModeDevice` and `ModeCharDevice` branches, which
share one case in the source. -/
inductive FileKind where
  | dir
  | symlink
  | regular
  | device
  | socket
  | other
deriving DecidableEq, Repr

/-- Per-object metadata and filesystem-call outcomes for one node.
`linkTarget = none` models a failing `os.Readlink`; `restat = none`
models a failing re-`os.Stat` in the device branch, `restat = some none`
a `Stat_t` cast failure there; `readDirOk = false` a failing
`ioutil.ReadDir`. -/
structure Meta where
  kind : FileKind
  mode : Nat
  nlink : Nat
  ino : Nat
  uid : Nat
  gid : Nat
  size : Nat
  content : List Nat
  linkTarget : Option Str
  restat : Option (Option (Nat × Nat))
  readDirOk : Bool
deriving DecidableEq, Repr

/-- A filesystem subtree: name of the entry, its metadata, its children
(meaningful for directories). -/
inductive FSTree where
  | node (name : Str) (meta : Meta) (children : List FSTree)
deriving Repr

/-- The base name of a tree node. -/
def FSTree.name : FSTree → Str
  | .node n _ _ => n

/-- The metadata of a tree node. -/
def FSTree.meta : FSTree → Meta
  | .node _ m _ => m

/-- Archive entry type flags (the `tar.Type*` constants used by the
code: regular, hard link, plus the kinds `FileInfoHeader` assigns). -/
inductive TypeFlag where
  | regTF
  | linkTF
  | symTF
  | dirTF
  | devTF
  | sockTF
  | otherTF
deriving DecidableEq, Repr

/-- One archive entry header as built by `processEntry`.  `devmajor` /
`devminor` are `none` while unset (Go leaves the zero value in place). -/
structure Header where
  name : Str
  mode : Nat
  uid : Nat
  gid : Nat
  size : Nat
  typeflag : TypeFlag
  linkname : Str
  devmajor : Option Nat
  devminor : Option Nat
deriving DecidableEq, Repr

/-- An emitted entry: the header handed to `WriteHeader`, the content
bytes streamed after it (`none` for entries without content), and ghost
fields recording the source object's kind, inode, link count and mode for
stating properties (they are not part of the archive bytes). -/
structure Emitted where
  header : Header
  content : Option (List Nat)
  srcKind : FileKind
  srcIno : Nat
  srcNlink : Nat
  srcMode : Nat
deriving DecidableEq, Repr

/-- Observable events of a run: entries written to the encoder, directory
listings read, and the two close operations of `Archive`'s defers. -/
inductive Event where
  | emit (e : Emitted)
  | readDir (dir : Str)
  | closeCompressor
  | closeArchive
deriving DecidableEq, Repr

/-- Errors a run can end with.  `nilStatPanic` models the runtime panic
raised when the device branch calls `fi.Sys()` on the nil `FileInfo`
returned by a failed `os.Stat` (the error at line 281 is discarded). -/
inductive Err where
  | readlinkFailed (path : Str)
  | relFailed
  | readDirFailed (dir : Str)
  | nilStatPanic (path : Str)
  | statRootFailed
  | bzip2Unsupported
  | detectInvalid
  | unknownCompression (c : Nat)
deriving DecidableEq, Repr

/-- Modelled from the spec: the `Compression` type and its constants are
declared outside the included sources (only `tarhelper/tar.go` is under
`src/`); the spec lists exactly the four modes `NONE`, `GZIP`, `BZIP2`,
`DETECT`.  They are modelled as distinct naturals; every other value hits
the `default` case of `Archive`'s switch. -/
def NONE : Nat := 0

/-- Modelled from the spec: the `GZIP` compression mode. -/
def GZIP : Nat := 1

/-- Modelled from the spec: the `BZIP2` compression mode. -/
def BZIP2 : Nat := 2

/-- Modelled from the spec: the `DETECT` compression mode. -/
def DETECT : Nat := 3

/-- The configuration of one `Tar` archiver (the fields of the Go `Tar`
struct that the archiving path reads).  `cwd` models the process working
directory consulted by `filepath.Abs`; the destination writer and the
encoder handle are represented by the event list a run produces. -/
structure Tar where
  target : Str
  compression : Nat
  includePermissions : Bool
  includeOwners : Bool
  excludedPaths : List Str
  virtualPath : Str
  cwd : Str
deriving DecidableEq, Repr

/-- The loop of `shouldBeExcluded`: first pattern matching the full name
or its base name wins; `filepath.Match` errors are discarded, exactly as
the `match, _ :=` assignments in the source do. -/
def shouldBeExcludedList : List Str → Str → Bool
  | [], _ => false
  | ex :: rest, name =>
    if (goMatch ex name).1 then true
    else if (goMatch ex (filepathBase name)).1 then true
    else shouldBeExcludedList rest name

/-- Models `Tar.shouldBeExcluded`. -/
def Tar.shouldBeExcluded (t : Tar) (name : Str) : Bool :=
  shouldBeExcludedList t.excludedPaths name

/-- Models `Tar.ExcludePath`: strip one leading separator if present,
then append the pattern to the exclusion list. -/
def Tar.excludePath (t : Tar) (name : Str) : Tar :=
  let name2 := if name.head? = some sep then name.tail else name
  { t with excludedPaths := t.excludedPaths ++ [name2] }

/-- Models `cleanLinkName(targetDir, name)`, with the result of
`os.Readlink` passed in (`none` = readlink failure) and the working
directory for `filepath.Abs` passed explicitly. -/
def cleanLinkName (targetDir name : Str) (readlinkResult : Option Str) (cwd : Str) :
    Except Err Str :=
  let dir := filepathDir name
  match readlinkResult with
  | none => .error (.readlinkFailed name)
  | some link0 =>
    let link1 := if !isAbs link0 then goAbs cwd (goJoin3 targetDir dir link0) else link0
    let link2 := clean link1
    if strContains link2 targetDir then
      match goRel (goJoin2 targetDir dir) link2 with
      | some r => .ok r
      | none => .error .relFailed
    else .ok link2

/-- The type flag `FileInfoHeader` assigns to each file class. -/
def typeflagOf : FileKind → TypeFlag
  | .dir => .dirTF
  | .symlink => .symTF
  | .regular => .regTF
  | .device => .devTF
  | .socket => .sockTF
  | .other => .otherTF

/-- Models the external `tar.FileInfoHeader(f, "")` contract (the vendored
encoder lives outside `src/`): a header carrying the on-disk mode bits,
the size for regular files, and the type flag of the file kind.  The name
it sets is irrelevant because `processEntry` overwrites it. -/
def fileInfoHeader (m : Meta) : Header :=
  { name := []
    mode := m.mode
    uid := 0
    gid := 0
    size := if m.kind = .regular then m.size else 0
    typeflag := typeflagOf m.kind
    linkname := []
    devmajor := none
    devminor := none }

/-- The hard-link table `Tar.hardLinks`: inode to first archive name. -/
abbrev HardLinks := List (Nat × Str)

/-- Map lookup on the hard-link table. -/
def hlLookup (hl : HardLinks) (i : Nat) : Option Str :=
  match hl with
  | [] => none
  | (k, v) :: rest => if k = i then some v else hlLookup rest i

/-- Pack a header, content and the source metadata into an entry. -/
def mkEmitted (h : Header) (content : Option (List Nat)) (m : Meta) : Emitted :=
  { header := h
    content := content
    srcKind := m.kind
    srcIno := m.ino
    srcNlink := m.nlink
    srcMode := m.mode }

mutual

/-- Models `Tar.processEntry`: classify one filesystem object, emit its
archive events, and thread the hard-link table.  The last component is
the run error (`none` = success); events already performed before a
failure are kept, matching the write-then-fail behavior of the source. -/
def processEntry (t : Tar) (hl : HardLinks) (fullName : Str) (f : FSTree) :
    HardLinks × List Event × Option Err :=
  match f with
  | .node _ m children =>
    if t.shouldBeExcluded fullName then (hl, [], none)
    else
      let h0 := fileInfoHeader m
      let name1 := str "./" ++ fullName
      let name2 :=
        if t.virtualPath ≠ [] then clean (goJoin3 (str ".") t.virtualPath name1)
        else name1
      let h1 :=
        { h0 with
          name := name2
          uid := if t.includeOwners then m.uid else 500
          gid := if t.includeOwners then m.gid else 500 }
      match m.kind with
      | .dir =>
        let h2 :=
          { h1 with
            mode := if !t.includePermissions then 0o755 else h1.mode
            name := name2 ++ [sep] }
        -- `processDirectory`, inlined: the `ioutil.ReadDir` outcome is the
        -- directory's `readDirOk` flag; on success the listing is read and
        -- each child processed in order.
        let r :=
          if !m.readDirOk then (hl, ([] : List Event), some (Err.readDirFailed fullName))
          else
            let r0 := processChildren t hl fullName children
            (r0.1, .readDir fullName :: r0.2.1, r0.2.2)
        (r.1, .emit (mkEmitted h2 none m) :: r.2.1, r.2.2)
      | .symlink =>
        let h2 := { h1 with mode := if !t.includePermissions then 0o755 else h1.mode }
        match cleanLinkName t.target fullName m.linkTarget t.cwd with
        | .error e => (hl, [], some e)
        | .ok link =>
          (hl, [.emit (mkEmitted { h2 with linkname := link } none m)], none)
      | .regular =>
        let h2 := { h1 with mode := if !t.includePermissions then 0o644 else h1.mode }
        if 1 < m.nlink then
          match hlLookup hl m.ino with
          | some dst =>
            let h3 := { h2 with typeflag := .linkTF, linkname := dst, size := 0 }
            (hl, [.emit (mkEmitted h3 none m)], none)
          | none =>
            ((m.ino, h2.name) :: hl, [.emit (mkEmitted h2 (some m.content) m)], none)
        else (hl, [.emit (mkEmitted h2 (some m.content) m)], none)
      | .device =>
        match m.restat with
        | none => (hl, [], some (.nilStatPanic fullName))
        | some cast =>
          let h2 :=
            match cast with
            | none => h1
            | some mm => { h1 with devmajor := some mm.1, devminor := some mm.2 }
          (hl, [.emit (mkEmitted h2 none m)], none)
      | .socket => (hl, [], none)
      | .other => (hl, [], none)

/-- The child loop of `Tar.processDirectory`: `filepath.Join(dir, name)`
for each child, stopping at the first error. -/
def processChildren (t : Tar) (hl : HardLinks) (dir : Str) (cs : List FSTree) :
    HardLinks × List Event × Option Err :=
  match cs with
  | [] => (hl, [], none)
  | c :: rest =>
    let r := processEntry t hl (goJoin2 dir c.name) c
    match r.2.2 with
    | some e => (r.1, r.2.1, some e)
    | none =>
      let r2 := processChildren t r.1 dir rest
      (r2.1, r.2.1 ++ r2.2.1, r2.2.2)

end

/-- The deferred actions `Archive` registers: the always-registered
closure that closes the encoder if it was created, and (for `GZIP`) the
gzip writer's `Close`. -/
inductive DeferAction where
  | closeArchiveIfSet
  | closeGzip
deriving DecidableEq, Repr

/-- Run a defer stack the way Go does — last registered first — mapping
each action to its observable event; `closeArchiveIfSet` does nothing
when the encoder was never created (the `t.archive != nil` check). -/
def runDefers (ds : List DeferAction) (archiveSet : Bool) : List Event :=
  ds.reverse.filterMap fun d =>
    match d with
    | .closeArchiveIfSet => if archiveSet then some .closeArchive else none
    | .closeGzip => some .closeCompressor

/-- Models `Tar.Archive`: select compression, stat the target root
(`root = none` models a failing `os.Stat`), process the root entry, and
run the defer stack on every exit path.  The resulting event list is
everything written to the encoder/compressor stack. -/
def Archive (t : Tar) (root : Option FSTree) : List Event × Option Err :=
  let ds0 : List DeferAction := [.closeArchiveIfSet]
  if t.compression = NONE ∨ t.compression = GZIP then
    let ds := if t.compression = GZIP then ds0 ++ [.closeGzip] else ds0
    match root with
    | none => (runDefers ds true, some .statRootFailed)
    | some f =>
      let r := processEntry t [] (str ".") f
      (r.2.1 ++ runDefers ds true, r.2.2)
  else if t.compression = BZIP2 then (runDefers ds0 false, some .bzip2Unsupported)
  else if t.compression = DETECT then (runDefers ds0 false, some .detectInvalid)
  else (runDefers ds0 false, some (.unknownCompression t.compression))

/-- The entries written by a list of run events. -/
def emitsOf (evs : List Event) : List Emitted :=
  evs.filterMap fun e =>
    match e with
    | .emit x => some x
    | _ => none

/-- Close events among the run events. -/
def isCloseEvent : Event → Bool
  | .closeArchive => true
  | .closeCompressor => true
  | _ => false

/-- The spec's notion for claim C2: a cleaned absolute path `p` lies under
the root `root` when it is `root` itself or has `root/` as a prefix. -/
def underRootB (p root : Str) : Bool :=
  (root ++ [sep]).isPrefixOf p || p = root

/-- The cleaned absolute target `cleanLinkName` computes before deciding
whether to relativize: the readlink result made absolute (against the
symlink's directory under the target, or the working directory) and
cleaned. -/
def resolvedTarget (targetDir name link0 cwd : Str) : Str :=
  clean (if !isAbs link0 then goAbs cwd (goJoin3 targetDir (filepathDir name) link0) else link0)

/-! ## General lemmas -/

theorem strContains_of_isPrefixOf {s sub : Str} (h : sub.isPrefixOf s) :
    strContains s sub = true := by
  unfold strContains
  rw [List.any_eq_true]
  exact ⟨0, by simp, by simpa using h⟩

instance : DecidableEq (Except Err Str) := fun x y =>
  match x, y with
  | .ok a, .ok b => if h : a = b then .isTrue (by rw [h]) else .isFalse (by simp [h])
  | .error a, .error b => if h : a = b then .isTrue (by rw [h]) else .isFalse (by simp [h])
  | .ok _, .error _ => .isFalse (by simp)
  | .error _, .ok _ => .isFalse (by simp)

/-! ## Fixtures for concrete runs -/

/-- A configuration fixture for concrete runs. -/
def tarFix : Tar :=
  { target := str "/t", compression := NONE, includePermissions := true,
    includeOwners := false, excludedPaths := [], virtualPath := [], cwd := str "/w" }

/-- Regular-file metadata fixture. -/
def regMeta (ino nlink : Nat) : Meta :=
  { kind := .regular, mode := 0o640, nlink := nlink, ino := ino, uid := 1, gid := 2,
    size := 2, content := [104, 105], linkTarget := none, restat := some none,
    readDirOk := true }

/-- Directory metadata fixture. -/
def dirMeta : Meta :=
  { kind := .dir, mode := 0o750, nlink := 1, ino := 9, uid := 1, gid := 2,
    size := 0, content := [], linkTarget := none, restat := some none, readDirOk := true }

/-- Device metadata fixture with a given re-stat outcome. -/
def devMeta (re : Option (Option (Nat × Nat))) : Meta :=
  { kind := .device, mode := 0o600, nlink := 1, ino := 11, uid := 0, gid := 0,
    size := 0, content := [], linkTarget := none, restat := re, readDirOk := true }

/-- A small tree: a root directory holding one plain file and two files
hard-linked to each other (inode 7, link count 2). -/
def treeFix : FSTree :=
  .node (str ".") dirMeta
    [.node (str "f") (regMeta 5 1) [], .node (str "g") (regMeta 7 2) [],
     .node (str "h") (regMeta 7 2) []]

/-! ## Claim C9 -/

/-- **C9.** For every pattern passed to `ExcludePath`, a single leading
path separator, if present, is stripped before the pattern is appended to
the exclusion list (`//x` becomes `/x`); patterns without a leading
separator are appended unchanged, and the rest of the exclusion list — and
the rest of the configuration — is unmodified. -/
theorem excludePath_strips_one_leading_sep (t : Tar) (c : Char) (s : Str) :
    (t.excludePath (sep :: s)).excludedPaths = t.excludedPaths ++ [s] ∧
    (t.excludePath (sep :: sep :: s)).excludedPaths = t.excludedPaths ++ [sep :: s] ∧
    (c ≠ sep → (t.excludePath (c :: s)).excludedPaths = t.excludedPaths ++ [c :: s]) ∧
    (t.excludePath []).excludedPaths = t.excludedPaths ++ [[]] ∧
    (t.excludePath (c :: s)).target = t.target ∧
    (t.excludePath (c :: s)).virtualPath = t.virtualPath := by
  refine ⟨by simp [Tar.excludePath], by simp [Tar.excludePath], ?_,
    by simp [Tar.excludePath], by simp [Tar.excludePath], by simp [Tar.excludePath]⟩
  intro hc
  simp [Tar.excludePath, hc]

/-- Witness for C9 at a concrete input: the pattern `"/b"` is stored as
`"b"` and the pattern `"b"` is stored unchanged. -/
theorem excludePath_strips_one_leading_sep_witness :
    ('b' ≠ sep) ∧
    (tarFix.excludePath (sep :: str "b")).excludedPaths = [] ++ [str "b"] ∧
    (tarFix.excludePath ('b' :: str "c")).excludedPaths = [] ++ [str "bc"] :=
  ⟨by decide,
   (excludePath_strips_one_leading_sep tarFix 'b' (str "b")).1,
   (excludePath_strips_one_leading_sep tarFix 'b' (str "c")).2.2.1 (by decide)⟩

/-! ## Claim C6 -/

/-- **C6.** Running with compression mode `BZIP2` fails immediately with
the "not supported" error, `DETECT` fails immediately with the "not a
valid compression type" error, and any mode other than
`NONE`/`GZIP`/`BZIP2`/`DETECT` fails with the "unknown compression type"
error; in all three cases the run performs no event at all — zero bytes
reach the sink (the encoder is never created, so even the deferred close
does nothing). -/
theorem archive_compression_errors (t : Tar) (root : Option FSTree) :
    (t.compression = BZIP2 → Archive t root = ([], some .bzip2Unsupported)) ∧
    (t.compression = DETECT → Archive t root = ([], some .detectInvalid)) ∧
    (t.compression ≠ NONE → t.compression ≠ GZIP → t.compression ≠ BZIP2 →
      t.compression ≠ DETECT →
      Archive t root = ([], some (.unknownCompression t.compression))) := by
  refine ⟨?_, ?_, ?_⟩
  · intro h
    simp [Archive, h, NONE, GZIP, BZIP2, DETECT, runDefers]
  · intro h
    simp [Archive, h, NONE, GZIP, BZIP2, DETECT, runDefers]
  · intro h0 h1 h2 h3
    simp [Archive, h0, h1, h2, h3, runDefers]

/-- Witness for C6: concrete runs under `BZIP2`, `DETECT` and the unknown
mode `7` fail with the three distinct errors and empty event lists. -/
theorem archive_compression_errors_witness :
    Archive { tarFix with compression := BZIP2 } (some treeFix) =
      ([], some .bzip2Unsupported) ∧
    Archive { tarFix with compression := DETECT } (some treeFix) =
      ([], some .detectInvalid) ∧
    Archive { tarFix with compression := 7 } (some treeFix) =
      ([], some (.unknownCompression 7)) :=
  ⟨(archive_compression_errors { tarFix with compression := BZIP2 } (some treeFix)).1 rfl,
   (archive_compression_errors { tarFix with compression := DETECT } (some treeFix)).2.1 rfl,
   (archive_compression_errors { tarFix with compression := 7 } (some treeFix)).2.2
     (by decide) (by decide) (by decide) (by decide)⟩

/-! ## Claim C4 -/

/-- **C4** (the code contradicts the claim): at a device entry whose
re-`Stat` fails the run does not write the header — it aborts with the
modelled nil-`FileInfo` panic (the error from `os.Stat` at line 281 is
discarded and `fi.Sys()` is called on the nil result).  A failing
metadata cast, by contrast, behaves as claimed: the header is still
written with major/minor unset and the run continues. -/
theorem device_restat_failure_panics :
    processEntry tarFix [] (str "dev") (.node (str "dev") (devMeta none) []) =
      ([], [], some (.nilStatPanic (str "dev"))) ∧
    (emitsOf (processEntry tarFix [] (str "dev")
        (.node (str "dev") (devMeta (some none)) [])).2.1).map
      (fun e => (e.header.devmajor, e.header.devminor, e.header.typeflag)) =
      [(none, none, .devTF)] ∧
    (processEntry tarFix [] (str "dev")
      (.node (str "dev") (devMeta (some none)) [])).2.2 = none := by
  decide

/-! ## Claim C2 -/

/-- **C2** (counterexample): with target root `/a`, a symlink `b` whose
on-disk target is the absolute path `/x/a/y` — which does *not* lie under
`/a` — is nevertheless rewritten to the relative path `../x/a/y` (because
`strings.Contains("/x/a/y", "/a")` holds), so the stored target of an
outside-the-root target is not the absolute path unchanged, refuting the
claim's "if and only if". -/
theorem cleanLinkName_counterexample :
    cleanLinkName (str "/a") (str "b") (some (str "/x/a/y")) (str "/w") =
      .ok (str "../x/a/y") ∧
    underRootB (str "/x/a/y") (str "/a") = false ∧
    str "../x/a/y" ≠ str "/x/a/y" := by
  decide

/-- **C2 (amended).** For every symlink processed by the resolver, the
stored link target is rewritten as a path relative to the symlink's
containing directory if and only if the cleaned absolute target *contains
the target root as a substring* (`strings.Contains`), not when it lies
under the target root; a cleaned absolute target not containing the root
as a substring is stored unchanged.  In particular every target that does
lie under the root is rewritten (under-root implies substring). -/
theorem cleanLinkName_amended (td name l cwd : Str) :
    (strContains (resolvedTarget td name l cwd) td = false →
      cleanLinkName td name (some l) cwd = .ok (resolvedTarget td name l cwd)) ∧
    (strContains (resolvedTarget td name l cwd) td = true →
      cleanLinkName td name (some l) cwd =
        match goRel (goJoin2 td (filepathDir name)) (resolvedTarget td name l cwd) with
        | some r => Except.ok r
        | none => Except.error Err.relFailed) ∧
    (underRootB (resolvedTarget td name l cwd) td = true →
      strContains (resolvedTarget td name l cwd) td = true) := by
  refine ⟨?_, ?_, ?_⟩
  · intro h
    simp [cleanLinkName, resolvedTarget] at h ⊢
    simp [h]
  · intro h
    simp [cleanLinkName, resolvedTarget] at h ⊢
    simp [h]
  · intro h
    rw [underRootB, Bool.or_eq_true] at h
    rcases h with h | h
    · exact strContains_of_isPrefixOf
        (List.isPrefixOf_iff_prefix.mpr
          (((td.prefix_append [sep]).trans (List.isPrefixOf_iff_prefix.mp h)).trans
            (List.prefix_refl _)))
    · rw [decide_eq_true_iff] at h
      rw [h]
      exact strContains_of_isPrefixOf (List.isPrefixOf_iff_prefix.mpr (List.prefix_refl _))

/-! ## Claim C3 -/

theorem emitsOf_nil : emitsOf [] = [] := rfl

theorem emitsOf_cons_emit (x : Emitted) (evs : List Event) :
    emitsOf (.emit x :: evs) = x :: emitsOf evs := rfl

theorem emitsOf_cons_readDir (d : Str) (evs : List Event) :
    emitsOf (.readDir d :: evs) = emitsOf evs := rfl

theorem emitsOf_append (a b : List Event) : emitsOf (a ++ b) = emitsOf a ++ emitsOf b :=
  List.filterMap_append a b _


/-- An emitted entry of a regular file with link count above one and
inode `i`: the entries claim C3 groups. -/
def isRegMulti (i : Nat) (e : Emitted) : Bool :=
  decide (e.srcKind = .regular) && decide (1 < e.srcNlink) && decide (e.srcIno = i)

/-- A full-content regular entry. -/
def fullE (e : Emitted) : Prop :=
  e.header.typeflag = .regTF ∧ e.content.isSome = true

/-- A hard-link entry referencing the archive name `nm`: link type flag,
size forced to zero, no content bytes, link target `nm`. -/
def linkE (e : Emitted) (nm : Str) : Prop :=
  e.header.typeflag = .linkTF ∧ e.header.size = 0 ∧ e.content = none ∧
    e.header.linkname = nm

/-- The hard-link invariant tying the table to the entries emitted so
far: an inode absent from the table has no multi-link regular entries; an
inode present with name `nm` has a first full entry named `nm` followed
only by link entries referencing `nm`; and regular files with link count
at most one are always emitted in full. -/
def HLInv (hl : HardLinks) (es : List Emitted) : Prop :=
  (∀ i, hlLookup hl i = none → es.filter (isRegMulti i) = []) ∧
  (∀ i nm, hlLookup hl i = some nm →
    ∃ e0 rest, es.filter (isRegMulti i) = e0 :: rest ∧ fullE e0 ∧
      e0.header.name = nm ∧ ∀ e ∈ rest, linkE e nm) ∧
  (∀ e ∈ es, e.srcKind = .regular → e.srcNlink ≤ 1 → fullE e)

theorem HLInv_nil : HLInv [] [] :=
  ⟨fun _ _ => rfl, fun i nm h => by simp [hlLookup] at h,
   fun e he => absurd he (List.not_mem_nil e)⟩

theorem isRegMulti_false_of_kind {e : Emitted} (h : ¬e.srcKind = .regular) (i : Nat) :
    isRegMulti i e = false := by
  simp [isRegMulti, h]

theorem isRegMulti_false_of_ino {e : Emitted} {j : Nat} (h : ¬e.srcIno = j) :
    isRegMulti j e = false := by
  simp [isRegMulti, h]

theorem HLInv_append_nonmulti (hl : HardLinks) (es : List Emitted) (hinv : HLInv hl es)
    (e : Emitted) (hnm : ∀ i, isRegMulti i e = false)
    (hfull : e.srcKind = .regular → e.srcNlink ≤ 1 → fullE e) :
    HLInv hl (es ++ [e]) := by
  obtain ⟨h1, h2, h3⟩ := hinv
  refine ⟨?_, ?_, ?_⟩
  · intro i hi
    rw [List.filter_append, h1 i hi, List.nil_append]
    simp [List.filter, hnm i]
  · intro i nm hi
    obtain ⟨e0, rest, hf, hfull0, hname, hrest⟩ := h2 i nm hi
    refine ⟨e0, rest, ?_, hfull0, hname, hrest⟩
    rw [List.filter_append, hf]
    simp [List.filter, hnm i]
  · intro e' he'
    rcases List.mem_append.mp he' with he' | he'
    · exact h3 e' he'
    · rw [List.mem_singleton.mp he']
      exact hfull

theorem HLInv_insert (hl : HardLinks) (es : List Emitted) (hinv : HLInv hl es)
    (e : Emitted) (i : Nat) (hlook : hlLookup hl i = none) (nm2 : Str)
    (hnm2 : e.header.name = nm2)
    (hreg : e.srcKind = .regular) (hn : 1 < e.srcNlink) (hino : e.srcIno = i)
    (hfull : fullE e) :
    HLInv ((i, nm2) :: hl) (es ++ [e]) := by
  subst hnm2
  obtain ⟨h1, h2, h3⟩ := hinv
  have hme : isRegMulti i e = true := by simp [isRegMulti, hreg, hn, hino]
  refine ⟨?_, ?_, ?_⟩
  · intro j hj
    rw [hlLookup] at hj
    by_cases hij : i = j
    · rw [if_pos hij] at hj
      exact absurd hj (by simp)
    · rw [if_neg hij] at hj
      rw [List.filter_append, h1 j hj, List.nil_append]
      simp [List.filter, isRegMulti_false_of_ino (by rw [hino]; exact hij)]
  · intro j nm hj
    rw [hlLookup] at hj
    by_cases hij : i = j
    · subst hij
      rw [if_pos rfl] at hj
      injection hj with hj
      refine ⟨e, [], ?_, hfull, hj, by simp⟩
      rw [List.filter_append, h1 i hlook, List.nil_append]
      simp [List.filter, hme]
    · rw [if_neg hij] at hj
      obtain ⟨e0, rest, hf, hfull0, hname, hrest⟩ := h2 j nm hj
      refine ⟨e0, rest, ?_, hfull0, hname, hrest⟩
      rw [List.filter_append, hf]
      simp [List.filter, isRegMulti_false_of_ino (by rw [hino]; exact hij)]
  · intro e' he'
    rcases List.mem_append.mp he' with he' | he'
    · exact h3 e' he'
    · rw [List.mem_singleton.mp he']
      intro _ hle
      exact absurd hle (by omega)

theorem HLInv_link (hl : HardLinks) (es : List Emitted) (hinv : HLInv hl es)
    (e : Emitted) (i : Nat) (nm : Str) (hlook : hlLookup hl i = some nm)
    (hreg : e.srcKind = .regular) (hn : 1 < e.srcNlink) (hino : e.srcIno = i)
    (hlink : linkE e nm) :
    HLInv hl (es ++ [e]) := by
  obtain ⟨h1, h2, h3⟩ := hinv
  have hme : isRegMulti i e = true := by simp [isRegMulti, hreg, hn, hino]
  refine ⟨?_, ?_, ?_⟩
  · intro j hj
    by_cases hij : i = j
    · rw [← hij, hlook] at hj
      exact absurd hj (by simp)
    · rw [List.filter_append, h1 j hj, List.nil_append]
      simp [List.filter, isRegMulti_false_of_ino (by rw [hino]; exact hij)]
  · intro j nm' hj
    by_cases hij : i = j
    · subst hij
      rw [hlook] at hj
      injection hj with hj
      subst hj
      obtain ⟨e0, rest, hf, hfull0, hname, hrest⟩ := h2 i nm hlook
      refine ⟨e0, rest ++ [e], ?_, hfull0, hname, ?_⟩
      · rw [List.filter_append, hf]
        simp [List.filter, hme]
      · intro e' he'
        rcases List.mem_append.mp he' with he' | he'
        · exact hrest e' he'
        · rw [List.mem_singleton.mp he']
          exact hlink
    · obtain ⟨e0, rest, hf, hfull0, hname, hrest⟩ := h2 j nm' hj
      refine ⟨e0, rest, ?_, hfull0, hname, hrest⟩
      rw [List.filter_append, hf]
      simp [List.filter, isRegMulti_false_of_ino (by rw [hino]; exact hij)]
  · intro e' he'
    rcases List.mem_append.mp he' with he' | he'
    · exact h3 e' he'
    · rw [List.mem_singleton.mp he']
      intro _ hle
      exact absurd hle (by omega)

mutual

/-- `processEntry` preserves the hard-link invariant. -/
theorem processEntry_hl (t : Tar) (hl : HardLinks) (fn : Str) (f : FSTree)
    (es : List Emitted) (hinv : HLInv hl es) :
    HLInv (processEntry t hl fn f).1 (es ++ emitsOf (processEntry t hl fn f).2.1) := by
  match f with
  | .node nm m cs =>
    simp only [processEntry]
    split
    · simpa [emitsOf]
    · split
      · -- directory
        rename_i hkind
        split
        · dsimp only
          rw [emitsOf_cons_emit, emitsOf_nil]
          exact HLInv_append_nonmulti hl es hinv _
            (fun i => isRegMulti_false_of_kind (by simp [mkEmitted, hkind]) i)
            (fun h => absurd h (by simp [mkEmitted, hkind]))
        · dsimp only
          rw [emitsOf_cons_emit, emitsOf_cons_readDir, List.append_cons]
          exact processChildren_hl t hl fn cs _
            (HLInv_append_nonmulti hl es hinv _
              (fun i => isRegMulti_false_of_kind (by simp [mkEmitted, hkind]) i)
              (fun h => absurd h (by simp [mkEmitted, hkind])))
      · -- symlink
        rename_i hkind
        split
        · simpa [emitsOf]
        · dsimp only
          rw [emitsOf_cons_emit, emitsOf_nil]
          exact HLInv_append_nonmulti hl es hinv _
            (fun i => isRegMulti_false_of_kind (by simp [mkEmitted, hkind]) i)
            (fun h => absurd h (by simp [mkEmitted, hkind]))
      · -- regular
        rename_i hkind
        split
        · rename_i hnl
          split
          · rename_i dst heq
            dsimp only
            rw [emitsOf_cons_emit, emitsOf_nil]
            refine HLInv_link hl es hinv _ m.ino dst heq ?_ ?_ ?_ ?_
            · exact hkind
            · exact hnl
            · exact rfl
            · exact ⟨rfl, rfl, rfl, rfl⟩
          · rename_i heq
            dsimp only
            rw [emitsOf_cons_emit, emitsOf_nil]
            refine HLInv_insert hl es hinv _ m.ino heq _ ?_ ?_ ?_ ?_ ?_
            · exact rfl
            · exact hkind
            · exact hnl
            · exact rfl
            · exact ⟨by simp [mkEmitted, fileInfoHeader, typeflagOf, hkind], rfl⟩
        · rename_i hnl
          dsimp only
          rw [emitsOf_cons_emit, emitsOf_nil]
          exact HLInv_append_nonmulti hl es hinv _
            (fun i => by simp [isRegMulti, mkEmitted, hnl])
            (fun _ _ => ⟨by simp [mkEmitted, fileInfoHeader, typeflagOf, hkind], rfl⟩)
      · -- device
        rename_i hkind
        split
        · simpa [emitsOf]
        · dsimp only
          rw [emitsOf_cons_emit, emitsOf_nil]
          exact HLInv_append_nonmulti hl es hinv _
            (fun i => isRegMulti_false_of_kind (by simp [mkEmitted, hkind]) i)
            (fun h => absurd h (by simp [mkEmitted, hkind]))
      · simpa [emitsOf]
      · simpa [emitsOf]

/-- The child loop preserves the hard-link invariant. -/
theorem processChildren_hl (t : Tar) (hl : HardLinks) (dir : Str) (cs : List FSTree)
    (es : List Emitted) (hinv : HLInv hl es) :
    HLInv (processChildren t hl dir cs).1
      (es ++ emitsOf (processChildren t hl dir cs).2.1) := by
  match cs with
  | [] => simpa [processChildren, emitsOf]
  | c :: rest =>
    have ih1 := processEntry_hl t hl (goJoin2 dir c.name) c es hinv
    simp only [processChildren]
    split
    · exact ih1
    · dsimp only
      rw [emitsOf_append, ← List.append_assoc]
      exact processChildren_hl t (processEntry t hl (goJoin2 dir c.name) c).1 dir rest _ ih1

end

/-- **C3.** In every run started on a fresh hard-link table: for each
inode, the multi-link regular entries emitted form either the empty list
or one full-content entry (the first in emission, i.e. traversal, order)
followed exclusively by link entries of size zero with no content bytes
whose target is that first entry's archive name; regular files with link
count at most one are always written in full; and every inode recorded in
the hard-link table stems from a full multi-link regular entry — files
with link count one never enter the table. -/
theorem hard_link_entries (t : Tar) (f : FSTree) :
    (∀ i, (emitsOf (processEntry t [] (str ".") f).2.1).filter (isRegMulti i) = [] ∨
      ∃ e0 rest,
        (emitsOf (processEntry t [] (str ".") f).2.1).filter (isRegMulti i) =
          e0 :: rest ∧ fullE e0 ∧ 1 < e0.srcNlink ∧ ∀ e ∈ rest, linkE e e0.header.name) ∧
    (∀ e ∈ emitsOf (processEntry t [] (str ".") f).2.1,
      e.srcKind = .regular → e.srcNlink ≤ 1 → fullE e) ∧
    (∀ i nm, hlLookup (processEntry t [] (str ".") f).1 i = some nm →
      ∃ e0 rest,
        (emitsOf (processEntry t [] (str ".") f).2.1).filter (isRegMulti i) =
          e0 :: rest ∧ fullE e0 ∧ e0.header.name = nm ∧ 1 < e0.srcNlink) := by
  have h := processEntry_hl t [] (str ".") f [] HLInv_nil
  rw [List.nil_append] at h
  obtain ⟨h1, h2, h3⟩ := h
  have hmulti : ∀ i e0 (rest : List Emitted),
      (emitsOf (processEntry t [] (str ".") f).2.1).filter (isRegMulti i) = e0 :: rest →
      1 < e0.srcNlink := by
    intro i e0 rest hf
    have : e0 ∈ (emitsOf (processEntry t [] (str ".") f).2.1).filter (isRegMulti i) :=
      hf ▸ List.mem_cons_self _ _
    have := (List.mem_filter.mp this).2
    simp only [isRegMulti, Bool.and_eq_true, decide_eq_true_iff] at this
    exact this.1.2
  refine ⟨?_, h3, ?_⟩
  · intro i
    cases hlk : hlLookup (processEntry t [] (str ".") f).1 i with
    | none => exact Or.inl (h1 i hlk)
    | some nm =>
      obtain ⟨e0, rest, hf, hfull0, hname, hrest⟩ := h2 i nm hlk
      exact Or.inr ⟨e0, rest, hf, hfull0, hmulti i e0 rest hf, hname ▸ hrest⟩
  · intro i nm hlk
    obtain ⟨e0, rest, hf, hfull0, hname, hrest⟩ := h2 i nm hlk
    exact ⟨e0, rest, hf, hfull0, hname, hmulti i e0 rest hf⟩

/-- Witness for C3: in the fixture run, inode 7 (two hard-linked files,
link count 2) produces exactly two grouped entries — one full entry and
one link entry referencing it. -/
theorem hard_link_entries_witness :
    ∃ e0 rest,
      (emitsOf (processEntry tarFix [] (str ".") treeFix).2.1).filter (isRegMulti 7) =
        e0 :: rest ∧ fullE e0 ∧ 1 < e0.srcNlink ∧ ∀ e ∈ rest, linkE e e0.header.name := by
  rcases (hard_link_entries tarFix treeFix).1 7 with h | h
  · exact absurd h (by decide)
  · exact h

/-! ## Claim C5 -/

mutual

/-- The traversal itself performs no close event: closes happen only in
`Archive`'s defers. -/
theorem processEntry_no_close (t : Tar) (hl : HardLinks) (fn : Str) (f : FSTree) :
    ∀ e ∈ (processEntry t hl fn f).2.1, isCloseEvent e = false := by
  match f with
  | .node nm m cs =>
    intro e he
    have ih := processChildren_no_close t hl fn cs
    simp only [processEntry] at he
    split at he
    · simp at he
    · split at he
      · -- directory
        split at he
        · simp at he
          simp [he, isCloseEvent]
        · simp only [List.mem_cons] at he
          rcases he with he | he | he
          · simp [he, isCloseEvent]
          · simp [he, isCloseEvent]
          · exact ih e he
      · -- symlink
        split at he
        · simp at he
        · simp at he
          simp [he, isCloseEvent]
      · -- regular
        split at he
        · split at he
          · simp at he
            simp [he, isCloseEvent]
          · simp at he
            simp [he, isCloseEvent]
        · simp at he
          simp [he, isCloseEvent]
      · -- device
        split at he
        · simp at he
        · simp at he
          simp [he, isCloseEvent]
      · simp at he
      · simp at he

/-- The child loop performs no close event either. -/
theorem processChildren_no_close (t : Tar) (hl : HardLinks) (dir : Str) (cs : List FSTree) :
    ∀ e ∈ (processChildren t hl dir cs).2.1, isCloseEvent e = false := by
  match cs with
  | [] =>
    intro e he
    simp [processChildren] at he
  | c :: rest =>
    intro e he
    have ih1 := processEntry_no_close t hl (goJoin2 dir c.name) c
    have ih2 := processChildren_no_close t (processEntry t hl (goJoin2 dir c.name) c).1 dir rest
    simp only [processChildren] at he
    split at he
    · exact ih1 e he
    · simp only [List.mem_append] at he
      rcases he with he | he
      · exact ih1 e he
      · exact ih2 e he

end

/-- **C5 (amended).** On every exit path of `Archive` after the encoder
is constructed (`NONE`/`GZIP`, whether the run succeeds or fails), the
deferred closes run last and in last-registered-first order: with `GZIP`
the compression wrapper is closed *first* and the encoder *second* — the
opposite order of the claim — and with `NONE` only the encoder is closed;
on the configuration-error exits the encoder was never created and
nothing is closed.  No close happens anywhere else in the run. -/
theorem archive_close_order (t : Tar) (root : Option FSTree) :
    (t.compression = GZIP →
      ∃ body, (Archive t root).1 = body ++ [.closeCompressor, .closeArchive] ∧
        ∀ e ∈ body, isCloseEvent e = false) ∧
    (t.compression = NONE →
      ∃ body, (Archive t root).1 = body ++ [.closeArchive] ∧
        ∀ e ∈ body, isCloseEvent e = false) ∧
    (t.compression ≠ NONE → t.compression ≠ GZIP → (Archive t root).1 = []) := by
  refine ⟨?_, ?_, ?_⟩
  · intro h
    match root with
    | none =>
      refine ⟨[], ?_, by simp⟩
      simp [Archive, h, NONE, GZIP, runDefers]
    | some f =>
      refine ⟨(processEntry t [] (str ".") f).2.1, ?_, processEntry_no_close t [] (str ".") f⟩
      simp [Archive, h, NONE, GZIP, runDefers]
  · intro h
    match root with
    | none =>
      refine ⟨[], ?_, by simp⟩
      simp [Archive, h, NONE, GZIP, runDefers]
    | some f =>
      refine ⟨(processEntry t [] (str ".") f).2.1, ?_, processEntry_no_close t [] (str ".") f⟩
      simp [Archive, h, NONE, GZIP, runDefers]
  · intro h0 h1
    by_cases h2 : t.compression = BZIP2
    · simp [Archive, h0, h1, h2, NONE, GZIP, BZIP2, DETECT, runDefers]
    · by_cases h3 : t.compression = DETECT
      · simp [Archive, h0, h1, h2, h3, NONE, GZIP, BZIP2, DETECT, runDefers]
      · simp only [NONE, GZIP, BZIP2, DETECT] at h0 h1 h2 h3
        simp [Archive, h0, h1, h2, h3, NONE, GZIP, BZIP2, DETECT, runDefers]

/-- **C5** (counterexample): a successful `GZIP` run closes the
compression wrapper *before* the archive encoder — the filtered close
sequence is `[closeCompressor, closeArchive]`, not the claimed
`[closeArchive, closeCompressor]` (Go defers run last-in-first-out, and
the encoder-closing defer is registered first, at line 89). -/
theorem archive_close_order_counterexample :
    ((Archive { tarFix with compression := GZIP } (some treeFix)).1.filter isCloseEvent =
      [Event.closeCompressor, Event.closeArchive]) ∧
    (Archive { tarFix with compression := GZIP } (some treeFix)).2 = none ∧
    ([Event.closeCompressor, Event.closeArchive] ≠
      [Event.closeArchive, Event.closeCompressor]) := by
  decide

/-- Witness for the amended C5: the `GZIP` case instantiated at a
concrete run. -/
theorem archive_close_order_witness :
    (({ tarFix with compression := GZIP } : Tar).compression = GZIP) ∧
    ∃ body,
      (Archive { tarFix with compression := GZIP } (some treeFix)).1 =
        body ++ [.closeCompressor, .closeArchive] ∧
      ∀ e ∈ body, isCloseEvent e = false :=
  ⟨rfl, (archive_close_order { tarFix with compression := GZIP } (some treeFix)).1 rfl⟩

/-! ## Claim C8 -/

/-- The mode discipline claim C8 asserts of every emitted entry. -/
def modeOK (t : Tar) (e : Emitted) : Prop :=
  (t.includePermissions = false →
    ((e.srcKind = .dir ∨ e.srcKind = .symlink) → e.header.mode = 0o755) ∧
    (e.srcKind = .regular → e.header.mode = 0o644)) ∧
  (t.includePermissions = true → e.header.mode = e.srcMode)

mutual

/-- Every entry emitted by `processEntry` obeys the mode discipline. -/
theorem processEntry_modes (t : Tar) (hl : HardLinks) (fn : Str) (f : FSTree) :
    ∀ e ∈ emitsOf (processEntry t hl fn f).2.1, modeOK t e := by
  match f with
  | .node nm m cs =>
    intro e he
    have ih := processChildren_modes t hl fn cs
    simp only [processEntry] at he
    split at he
    · simp [emitsOf] at he
    · split at he
      · -- directory
        rename_i hkind
        split at he
        · rw [emitsOf_cons_emit] at he
          rcases List.mem_cons.mp he with he | he
          · subst he
            cases hp : t.includePermissions <;>
              simp [modeOK, mkEmitted, fileInfoHeader, hp, hkind]
          · simp [emitsOf] at he
        · rw [emitsOf_cons_emit, emitsOf_cons_readDir] at he
          rcases List.mem_cons.mp he with he | he
          · subst he
            cases hp : t.includePermissions <;>
              simp [modeOK, mkEmitted, fileInfoHeader, hp, hkind]
          · exact ih e he
      · -- symlink
        rename_i hkind
        split at he
        · simp [emitsOf] at he
        · rw [emitsOf_cons_emit] at he
          rcases List.mem_cons.mp he with he | he
          · subst he
            cases hp : t.includePermissions <;>
              simp [modeOK, mkEmitted, fileInfoHeader, hp, hkind]
          · simp [emitsOf] at he
      · -- regular
        rename_i hkind
        split at he
        · split at he <;> rw [emitsOf_cons_emit] at he <;>
            rcases List.mem_cons.mp he with he | he
          · subst he
            cases hp : t.includePermissions <;>
              simp [modeOK, mkEmitted, fileInfoHeader, hp, hkind]
          · simp [emitsOf] at he
          · subst he
            cases hp : t.includePermissions <;>
              simp [modeOK, mkEmitted, fileInfoHeader, hp, hkind]
          · simp [emitsOf] at he
        · rw [emitsOf_cons_emit] at he
          rcases List.mem_cons.mp he with he | he
          · subst he
            cases hp : t.includePermissions <;>
              simp [modeOK, mkEmitted, fileInfoHeader, hp, hkind]
          · simp [emitsOf] at he
      · -- device
        rename_i hkind
        split at he
        · simp [emitsOf] at he
        · rw [emitsOf_cons_emit] at he
          rcases List.mem_cons.mp he with he | he
          · subst he
            cases hp : t.includePermissions <;>
              split <;>
              simp [modeOK, mkEmitted, fileInfoHeader, hp, hkind]
          · simp [emitsOf] at he
      · simp [emitsOf] at he
      · simp [emitsOf] at he

/-- Every entry emitted by the child loop obeys the mode discipline. -/
theorem processChildren_modes (t : Tar) (hl : HardLinks) (dir : Str) (cs : List FSTree) :
    ∀ e ∈ emitsOf (processChildren t hl dir cs).2.1, modeOK t e := by
  match cs with
  | [] =>
    intro e he
    simp [processChildren, emitsOf] at he
  | c :: rest =>
    intro e he
    have ih1 := processEntry_modes t hl (goJoin2 dir c.name) c
    have ih2 := processChildren_modes t (processEntry t hl (goJoin2 dir c.name) c).1 dir rest
    simp only [processChildren] at he
    split at he
    · exact ih1 e he
    · rw [emitsOf_append, List.mem_append] at he
      rcases he with he | he
      · exact ih1 e he
      · exact ih2 e he

end

/-- **C8.** When `IncludePermissions` is false, every directory entry's
and every symlink entry's mode equals the fixed directory default `0755`
and every regular-file entry's mode equals the fixed file default `0644`,
regardless of on-disk mode; when `IncludePermissions` is true the on-disk
mode bits are kept — for every entry emitted by a run. -/
theorem include_permissions_modes (t : Tar) (f : FSTree) (e : Emitted)
    (he : e ∈ emitsOf (processEntry t [] (str ".") f).2.1) :
    (t.includePermissions = false →
      ((e.srcKind = .dir ∨ e.srcKind = .symlink) → e.header.mode = 0o755) ∧
      (e.srcKind = .regular → e.header.mode = 0o644)) ∧
    (t.includePermissions = true → e.header.mode = e.srcMode) :=
  processEntry_modes t [] (str ".") f e he

/-- Witness for C8: in a run over the fixture tree with
`IncludePermissions = false`, the root directory entry gets mode `0755`
(on-disk mode is `0750`); with the default `true` it keeps `0750`. -/
theorem include_permissions_modes_witness :
    (∃ e, e ∈ emitsOf (processEntry { tarFix with includePermissions := false } []
        (str ".") treeFix).2.1 ∧ e.srcKind = .dir ∧ e.header.mode = 0o755 ∧
        e.srcMode = 0o750) ∧
    (∃ e, e ∈ emitsOf (processEntry tarFix [] (str ".") treeFix).2.1 ∧
        e.srcKind = .dir ∧ e.header.mode = 0o750) := by
  constructor
  · refine ⟨_, List.mem_cons_self _ _, ?_⟩
    have h := (include_permissions_modes { tarFix with includePermissions := false } treeFix
      _ (List.mem_cons_self _ _)).1 rfl
    refine ⟨by decide, ?_, by decide⟩
    exact h.1 (by decide)
  · refine ⟨_, List.mem_cons_self _ _, ?_⟩
    have h := (include_permissions_modes tarFix treeFix _ (List.mem_cons_self _ _)).2 rfl
    refine ⟨by decide, ?_⟩
    rw [h]
    decide

/-! ## Path algebra for claim C1

`clean` is analysed through the separator-split elements of a path:
`segsOf`, the `normStep` folding, and `joinSegs`. -/

/-- A plain path element: non-empty, not `"."`, separator-free (may be
`".."`). -/
def plainSeg (s : Str) : Prop := s ≠ [] ∧ s ≠ str "." ∧ sep ∉ s

theorem splitSlash_ne_nil (s : Str) : splitSlash s ≠ [] := by
  match s with
  | [] => simp [splitSlash]
  | c :: rest =>
    simp only [splitSlash]
    split
    · simp
    · have ih := splitSlash_ne_nil rest
      match h : splitSlash rest with
      | [] => exact absurd h ih
      | x :: xs => simp [List.modifyHead]

theorem splitSlash_append_sep (a b : Str) :
    splitSlash (a ++ sep :: b) = splitSlash a ++ splitSlash b := by
  match a with
  | [] => simp [splitSlash]
  | c :: rest =>
    have ih := splitSlash_append_sep rest b
    by_cases hc : c = sep
    · simp [splitSlash, hc, ih]
    · simp only [List.cons_append, splitSlash, hc, if_false]
      rw [show rest.append (sep :: b) = rest ++ sep :: b from rfl, ih]
      match h : splitSlash rest with
      | [] => exact absurd h (splitSlash_ne_nil rest)
      | x :: xs => simp [List.modifyHead]

theorem segsOf_append_sep (a b : Str) : segsOf (a ++ sep :: b) = segsOf a ++ segsOf b := by
  simp [segsOf, splitSlash_append_sep, List.filter_append]

theorem splitSlash_no_sep (s : Str) (h : sep ∉ s) : splitSlash s = [s] := by
  match s with
  | [] => rfl
  | c :: rest =>
    have hc : ¬c = sep := fun e => h (by simp [e])
    have ih := splitSlash_no_sep rest fun hm => h (List.mem_cons_of_mem _ hm)
    simp [splitSlash, hc, ih, List.modifyHead]

theorem segsOf_plain (s : Str) (h : plainSeg s) : segsOf s = [s] := by
  rcases h with ⟨h1, h2, h3⟩
  simp [segsOf, splitSlash_no_sep s h3, List.filter, h1, h2]

theorem splitSlash_no_sep_elems (s : Str) : ∀ x ∈ splitSlash s, sep ∉ x := by
  match s with
  | [] =>
    intro x hx
    simp [splitSlash] at hx
    simp [hx]
  | c :: rest =>
    intro x hx
    by_cases hc : c = sep
    · simp only [splitSlash, hc, if_true, List.mem_cons] at hx
      rcases hx with hx | hx
      · simp [hx]
      · exact splitSlash_no_sep_elems rest x hx
    · simp only [splitSlash, hc, if_false] at hx
      have ihy := splitSlash_no_sep_elems rest
      match h : splitSlash rest with
      | [] => exact absurd h (splitSlash_ne_nil rest)
      | y :: ys =>
        rw [h, List.modifyHead] at hx
        rcases List.mem_cons.mp hx with hx | hx
        · subst hx
          intro hm
          rcases List.mem_cons.mp hm with hm | hm
          · exact hc hm.symm
          · exact ihy y (h ▸ List.mem_cons_self _ _) hm
        · exact ihy x (h ▸ List.mem_cons_of_mem _ hx)

theorem segsOf_elems_plain (s : Str) : ∀ x ∈ segsOf s, plainSeg x := by
  intro x hx
  rw [segsOf, List.mem_filter] at hx
  rcases hx with ⟨hmem, hcond⟩
  rw [decide_eq_true_iff] at hcond
  push_neg at hcond
  exact ⟨hcond.1, hcond.2, splitSlash_no_sep_elems s x hmem⟩

theorem normFold_no_dotdot (r : Bool) (xs st : List Str) (h : ∀ x ∈ xs, x ≠ str "..") :
    normFold r st xs = xs.reverse ++ st := by
  match xs with
  | [] => simp [normFold]
  | x :: rest =>
    have hx := h x (List.mem_cons_self _ _)
    have ih := normFold_no_dotdot r rest (normStep r st x)
      fun y hy => h y (List.mem_cons_of_mem _ hy)
    simp only [normFold, List.foldl_cons] at ih ⊢
    rw [ih]
    unfold normStep
    rw [if_neg hx]
    simp

theorem normFold_all_dotdot (xs st : List Str) (hxs : ∀ x ∈ xs, x = str "..")
    (hst : ∀ x ∈ st, x = str "..") : normFold false st xs = xs.reverse ++ st := by
  match xs with
  | [] => simp [normFold]
  | x :: rest =>
    have hx := hxs x (List.mem_cons_self _ _)
    have hstep : normStep false st x = x :: st := by
      unfold normStep
      rw [if_pos hx]
      match st with
      | [] => simp
      | top :: st' =>
        rw [hst top (List.mem_cons_self _ _)]
        show (if str ".." = str ".." then x :: str ".." :: st' else st') = x :: str ".." :: st'
        rw [if_pos rfl]
    have ih := normFold_all_dotdot rest (x :: st)
      (fun y hy => hxs y (List.mem_cons_of_mem _ hy))
      (by
        intro y hy
        rcases List.mem_cons.mp hy with hy | hy
        · rw [hy, hx]
        · exact hst y hy)
    simp only [normFold, List.foldl_cons] at ih ⊢
    rw [hstep, ih]
    simp

theorem joinSegs_cons (x : Str) (y : Str) (ys : List Str) :
    joinSegs (x :: y :: ys) = x ++ sep :: joinSegs (y :: ys) := rfl

theorem joinSegs_append_ne (xs ys : List Str) (hxs : xs ≠ []) (hys : ys ≠ []) :
    joinSegs (xs ++ ys) = joinSegs xs ++ sep :: joinSegs ys := by
  match xs with
  | [x] =>
    match ys with
    | y :: ys' => simp [joinSegs_cons, joinSegs]
  | x :: x2 :: rest =>
    have ih := joinSegs_append_ne (x2 :: rest) ys (by simp) hys
    calc joinSegs ((x :: x2 :: rest) ++ ys)
        = x ++ sep :: joinSegs ((x2 :: rest) ++ ys) := rfl
      _ = x ++ sep :: (joinSegs (x2 :: rest) ++ sep :: joinSegs ys) := by rw [ih]
      _ = joinSegs (x :: x2 :: rest) ++ sep :: joinSegs ys := by
          rw [joinSegs_cons]
          simp

theorem segsOf_joinSegs (xs : List Str) (h : ∀ x ∈ xs, plainSeg x) :
    segsOf (joinSegs xs) = xs := by
  match xs with
  | [] => rfl
  | [x] =>
    rw [joinSegs]
    exact segsOf_plain x (h x (List.mem_cons_self _ _))
  | x :: x2 :: rest =>
    have ih := segsOf_joinSegs (x2 :: rest) fun y hy => h y (List.mem_cons_of_mem _ hy)
    rw [joinSegs_cons, segsOf_append_sep,
      segsOf_plain x (h x (List.mem_cons_self _ _)), ih]
    rfl

theorem joinSegs_ne_nil (x : Str) (xs : List Str) (hx : x ≠ []) : joinSegs (x :: xs) ≠ [] := by
  match xs with
  | [] => simpa [joinSegs]
  | y :: ys =>
    rw [joinSegs_cons]
    simp [hx]

theorem joinSegs_head? (x : Str) (xs : List Str) (hx : x ≠ []) :
    (joinSegs (x :: xs)).head? = x.head? := by
  match xs with
  | [] => rw [joinSegs]
  | y :: ys =>
    rw [joinSegs_cons]
    match x with
    | c :: x' => rfl

/-- A normal output stack of `normStep` under `rooted = false`: plain
non-`".."` elements on top of a run of `".."`s. -/
def NormalStack (st : List Str) : Prop :=
  ∃ A B, st = B ++ A ∧ (∀ x ∈ A, x = str "..") ∧ (∀ x ∈ B, plainSeg x ∧ x ≠ str "..")

theorem normalStack_nil : NormalStack [] := ⟨[], [], rfl, by simp, by simp⟩

theorem normalStack_elems {st : List Str} (h : NormalStack st) : ∀ x ∈ st, plainSeg x := by
  obtain ⟨A, B, rfl, hA, hB⟩ := h
  intro x hx
  rcases List.mem_append.mp hx with hx | hx
  · exact (hB x hx).1
  · rw [hA x hx]
    refine ⟨by simp [str], by simp [str], by simp [str, sep]⟩

theorem normStep_normal {st : List Str} (h : NormalStack st) (e : Str) (he : plainSeg e) :
    NormalStack (normStep false st e) := by
  obtain ⟨A, B, rfl, hA, hB⟩ := h
  by_cases hd : e = str ".."
  · match B, A with
    | [], [] =>
      show NormalStack (normStep false [] e)
      unfold normStep
      rw [if_pos hd]
      refine ⟨[e], [], by simp, ?_, by simp⟩
      intro x hx
      simp only [List.mem_singleton] at hx
      rw [hx, hd]
    | [], a :: A' =>
      show NormalStack (normStep false (a :: A') e)
      unfold normStep
      rw [if_pos hd]
      show NormalStack (if a = str ".." then e :: (a :: A') else A')
      rw [if_pos (hA a (List.mem_cons_self _ _))]
      refine ⟨e :: a :: A', [], by simp, ?_, by simp⟩
      intro x hx
      rcases List.mem_cons.mp hx with hx | hx
      · rw [hx, hd]
      · exact hA x hx
    | b :: B', A =>
      show NormalStack (normStep false (b :: (B' ++ A)) e)
      unfold normStep
      rw [if_pos hd]
      show NormalStack (if b = str ".." then e :: (b :: (B' ++ A)) else B' ++ A)
      rw [if_neg (hB b (List.mem_cons_self _ _)).2]
      exact ⟨A, B', rfl, hA, fun x hx => hB x (List.mem_cons_of_mem _ hx)⟩
  · unfold normStep
    rw [if_neg hd]
    refine ⟨A, e :: B, rfl, hA, ?_⟩
    intro x hx
    rcases List.mem_cons.mp hx with hx | hx
    · rw [hx]
      exact ⟨he, hd⟩
    · exact hB x hx

theorem normFold_normal (xs : List Str) (hxs : ∀ x ∈ xs, plainSeg x) :
    ∀ st, NormalStack st → NormalStack (normFold false st xs) := by
  match xs with
  | [] =>
    intro st h
    simpa [normFold]
  | x :: rest =>
    intro st h
    have h1 := normStep_normal h x (hxs x (List.mem_cons_self _ _))
    have ih := normFold_normal rest (fun y hy => hxs y (List.mem_cons_of_mem _ hy))
      (normStep false st x) h1
    simpa [normFold] using ih

theorem normFold_reverse_self (st : List Str) (hst : NormalStack st) :
    normFold false [] st.reverse = st := by
  obtain ⟨A, B, rfl, hA, hB⟩ := hst
  rw [List.reverse_append]
  rw [normFold, List.foldl_append, ← normFold, ← normFold]
  rw [normFold_all_dotdot A.reverse [] (fun x hx => hA x (List.mem_reverse.mp hx)) (by simp)]
  rw [List.append_nil, List.reverse_reverse]
  rw [normFold_no_dotdot false B.reverse A (fun x hx => (hB x (List.mem_reverse.mp hx)).2)]
  rw [List.reverse_reverse]

theorem clean_joinSegs_of_normalStack (st : List Str) (hst : NormalStack st) (hne : st ≠ []) :
    clean (joinSegs st.reverse) = joinSegs st.reverse := by
  have helems : ∀ x ∈ st.reverse, plainSeg x := fun x hx =>
    normalStack_elems hst x (List.mem_reverse.mp hx)
  have hsegs : segsOf (joinSegs st.reverse) = st.reverse := segsOf_joinSegs _ helems
  have hfold := normFold_reverse_self st hst
  cases hrev : st.reverse with
  | nil => exact absurd (List.reverse_eq_nil_iff.mp hrev) hne
  | cons n0 N' =>
    rw [hrev] at hsegs hfold helems
    have h0 : plainSeg n0 := helems n0 (List.mem_cons_self _ _)
    have hne2 : joinSegs (n0 :: N') ≠ [] := joinSegs_ne_nil n0 N' h0.1
    have hhead : ¬(joinSegs (n0 :: N')).head? = some sep := by
      rw [joinSegs_head? n0 N' h0.1]
      match n0, h0 with
      | [], h0 => exact absurd rfl h0.1
      | c :: n0', h0 =>
        simp only [List.head?_cons, Option.some.injEq]
        intro hc
        exact h0.2.2 (by simp [hc])
    unfold clean
    rw [if_neg hne2, if_neg hhead, hsegs, hfold, hrev]
    rw [if_neg (by simp)]

theorem dotSlash_not_prefix (x tl : Str) (hx : plainSeg x) :
    (str "./").isPrefixOf (x ++ tl) = false := by
  match x with
  | [] => exact absurd rfl hx.1
  | [c] =>
    by_cases hc : c = '.'
    · exact absurd (by rw [hc]; rfl) hx.2.1
    · have hb : ('.' == c) = false := by
        rw [beq_eq_false_iff_ne]
        exact fun h => hc h.symm
      show (('.' == c) && List.isPrefixOf ['/'] tl) = false
      rw [hb, Bool.false_and]
  | c :: c2 :: x' =>
    by_cases hc : c = '.'
    · have h2 : ¬c2 = '/' := by
        intro h
        exact hx.2.2 (by simp [h, sep])
      have hb : ('/' == c2) = false := by
        rw [beq_eq_false_iff_ne]
        exact fun h => h2 h.symm
      show (('.' == c) && (('/' == c2) && List.isPrefixOf [] (x' ++ tl))) = false
      rw [hb, Bool.false_and, Bool.and_false]
    · have hb : ('.' == c) = false := by
        rw [beq_eq_false_iff_ne]
        exact fun h => hc h.symm
      show (('.' == c) && (('/' == c2) && List.isPrefixOf [] (x' ++ tl))) = false
      rw [hb, Bool.false_and]

/-- A path element that may appear as a traversal step: plain and not
`".."` (real directory-entry names contain no separator and are never
`"."` or `".."`). -/
def goodSeg (s : Str) : Prop := plainSeg s ∧ s ≠ str ".."

/-- The relative path made of the elements `D` (the empty list renders as
`"."`, the root).  Every `fullName` the traversal passes around has this
form. -/
def renderRel (D : List Str) : Str := if D = [] then str "." else joinSegs D

theorem segsOf_renderRel (D : List Str) (hD : ∀ x ∈ D, plainSeg x) :
    segsOf (renderRel D) = D := by
  rw [renderRel]
  split
  · rename_i h
    rw [h]
    rfl
  · exact segsOf_joinSegs D hD

theorem clean_not_rooted_eq (s : Str) (hs : s ≠ []) (hhead : ¬s.head? = some sep)
    (hne : (normFold false [] (segsOf s)).reverse ≠ []) :
    clean s = joinSegs (normFold false [] (segsOf s)).reverse := by
  unfold clean
  rw [if_neg hs, if_neg hhead, if_neg hne]

theorem head?_append_of_ne_nil (a b : Str) (ha : a ≠ []) : (a ++ b).head? = a.head? := by
  match a with
  | c :: a' => rfl

theorem normalStack_prepend (C : List Str) (hC : ∀ x ∈ C, goodSeg x) {st : List Str}
    (h : NormalStack st) : NormalStack (C ++ st) := by
  obtain ⟨A, B, rfl, hA, hB⟩ := h
  refine ⟨A, C ++ B, by rw [List.append_assoc], hA, ?_⟩
  intro x hx
  rcases List.mem_append.mp hx with hx | hx
  · exact hC x hx
  · exact hB x hx

/-- The key C1 computation: with a non-empty normalized prefix, the
virtual-path remap `Clean(Join(".", vp, "./" ++ rel))` is the join of the
normalized prefix elements and the relative elements — in particular it
does not begin with `"./"`. -/
theorem vp_name_eq (vp : Str) (D : List Str) (hD : ∀ x ∈ D, goodSeg x)
    (hNV : normFold false [] (segsOf vp) ≠ []) :
    clean (goJoin3 (str ".") vp (str "./" ++ renderRel D)) =
      joinSegs ((normFold false [] (segsOf vp)).reverse ++ D) := by
  have hDp : ∀ x ∈ D, plainSeg x := fun x hx => (hD x hx).1
  have hshape : goJoin3 (str ".") vp (str "./" ++ renderRel D) =
      clean ((str "." ++ sep :: vp) ++ sep :: (str "./" ++ renderRel D)) := by
    rw [goJoin3, if_neg (by simp [str])]
  have hseg1 : segsOf ((str "." ++ sep :: vp) ++ sep :: (str "./" ++ renderRel D)) =
      segsOf vp ++ D := by
    rw [segsOf_append_sep, segsOf_append_sep,
      show str "./" ++ renderRel D = str "." ++ sep :: renderRel D from rfl,
      segsOf_append_sep, segsOf_renderRel D hDp]
    simp [segsOf, splitSlash, str, List.filter]
  have hfold : (normFold false [] (segsOf vp ++ D)).reverse =
      (normFold false [] (segsOf vp)).reverse ++ D := by
    rw [normFold, List.foldl_append, ← normFold, ← normFold,
      normFold_no_dotdot false D _ fun x hx => (hD x hx).2]
    rw [List.reverse_append, List.reverse_reverse]
  have hsne : ((str "." ++ sep :: vp) ++ sep :: (str "./" ++ renderRel D)) ≠ [] := by
    simp [str]
  have hhead : ¬((str "." ++ sep :: vp) ++ sep :: (str "./" ++ renderRel D)).head? =
      some sep := by
    rw [head?_append_of_ne_nil _ _ (by simp [str]),
      head?_append_of_ne_nil _ _ (by simp [str])]
    simp [str, sep]
  have hNVrev : (normFold false [] (segsOf vp)).reverse ≠ [] := by
    simpa using hNV
  have hne2 : (normFold false []
      (segsOf ((str "." ++ sep :: vp) ++ sep :: (str "./" ++ renderRel D)))).reverse ≠ [] := by
    rw [hseg1, hfold]
    exact fun h => hNVrev (List.append_eq_nil.mp h).1
  have hinner : clean ((str "." ++ sep :: vp) ++ sep :: (str "./" ++ renderRel D)) =
      joinSegs ((normFold false [] (segsOf vp)).reverse ++ D) := by
    rw [clean_not_rooted_eq _ hsne hhead hne2, hseg1, hfold]
  have hNVnormal : NormalStack (normFold false [] (segsOf vp)) :=
    normFold_normal _ (segsOf_elems_plain vp) [] normalStack_nil
  have houter : NormalStack (D.reverse ++ normFold false [] (segsOf vp)) :=
    normalStack_prepend D.reverse (fun x hx => hD x (List.mem_reverse.mp hx)) hNVnormal
  have hstne : D.reverse ++ normFold false [] (segsOf vp) ≠ [] :=
    fun h => hNV (List.append_eq_nil.mp h).2
  have houterclean := clean_joinSegs_of_normalStack _ houter hstne
  rw [List.reverse_append, List.reverse_reverse] at houterclean
  rw [hshape, hinner]
  exact houterclean

/-- `filepath.Join(dir, name)` extends a rendered relative path by one
good element. -/
theorem goJoin2_renderRel (D : List Str) (hD : ∀ x ∈ D, goodSeg x) (nm : Str)
    (hnm : goodSeg nm) : goJoin2 (renderRel D) nm = renderRel (D ++ [nm]) := by
  match D with
  | [] =>
    rw [renderRel, if_pos rfl, goJoin2, if_neg (by simp [str])]
    have hseg : segsOf (str "." ++ sep :: nm) = [nm] := by
      rw [segsOf_append_sep, segsOf_plain nm hnm.1]
      rfl
    rw [clean_not_rooted_eq _ (by simp [str]) (by simp [str, sep]) ?hne]
    case hne =>
      rw [hseg, normFold_no_dotdot false [nm] [] (by simpa using hnm.2)]
      simp
    rw [hseg, normFold_no_dotdot false [nm] [] (by simpa using hnm.2)]
    simp [renderRel, joinSegs]
  | d :: D' =>
    have hd : plainSeg d := (hD d (List.mem_cons_self _ _)).1
    have hjne : joinSegs (d :: D') ≠ [] := joinSegs_ne_nil d D' hd.1
    rw [renderRel, if_neg (by simp), goJoin2, if_neg hjne]
    have hDp : ∀ x ∈ d :: D', plainSeg x := fun x hx => (hD x hx).1
    have hseg : segsOf (joinSegs (d :: D') ++ sep :: nm) = (d :: D') ++ [nm] := by
      rw [segsOf_append_sep, segsOf_joinSegs _ hDp, segsOf_plain nm hnm.1]
    have hnodot : ∀ x ∈ (d :: D') ++ [nm], x ≠ str ".." := by
      intro x hx
      rcases List.mem_append.mp hx with hx | hx
      · exact (hD x hx).2
      · rw [List.mem_singleton.mp hx]
        exact hnm.2
    have hhead : ¬(joinSegs (d :: D') ++ sep :: nm).head? = some sep := by
      rw [head?_append_of_ne_nil _ _ hjne, joinSegs_head? d D' hd.1]
      match d, hd with
      | c :: d', hd =>
        simp only [List.head?_cons, Option.some.injEq]
        intro hc
        exact hd.2.2 (by simp [hc])
    rw [clean_not_rooted_eq _ (by simp [hjne]) hhead ?hne2]
    case hne2 =>
      rw [hseg, normFold_no_dotdot false _ [] hnodot]
      simp
    rw [hseg, normFold_no_dotdot false _ [] hnodot]
    rw [List.append_nil, List.reverse_reverse, renderRel, if_neg (by simp)]

/-- A good directory-entry name, as a boolean: non-empty, not `"."` or
`".."`, separator-free. -/
def goodNameB (s : Str) : Bool :=
  decide (s ≠ []) && decide (s ≠ str ".") && decide (s ≠ str "..") && s.all (· ≠ sep)

mutual

/-- Every name in the tree below the node is a good entry name. -/
def wfTreeB : FSTree → Bool
  | .node _ _ cs => wfChildrenB cs

/-- `wfTreeB` on a list of children. -/
def wfChildrenB : List FSTree → Bool
  | [] => true
  | c :: rest => (goodNameB c.name && wfTreeB c) && wfChildrenB rest

end

theorem goodSeg_of_goodNameB {s : Str} (h : goodNameB s = true) : goodSeg s := by
  rw [goodNameB] at h
  simp only [Bool.and_eq_true, decide_eq_true_iff, List.all_eq_true] at h
  refine ⟨⟨h.1.1.1, h.1.1.2, ?_⟩, h.1.2⟩
  intro hm
  have := h.2 sep hm
  simp at this

theorem wfChildrenB_cons {c : FSTree} {rest : List FSTree}
    (h : wfChildrenB (c :: rest) = true) :
    goodNameB c.name = true ∧ wfTreeB c = true ∧ wfChildrenB rest = true := by
  rw [wfChildrenB] at h
  simp only [Bool.and_eq_true] at h
  exact ⟨h.1.1, h.1.2, h.2⟩

theorem joinSegs_cons_eq_append (x : Str) (xs : List Str) :
    ∃ tl, joinSegs (x :: xs) = x ++ tl := by
  match xs with
  | [] =>
    refine ⟨[], ?_⟩
    rw [joinSegs]
    simp
  | y :: ys => exact ⟨sep :: joinSegs (y :: ys), rfl⟩

/-- The name discipline claim C1 (amended) asserts of every entry emitted
under a non-empty virtual path: the name extends the cleaned relative
form of the prefix and never begins with `"./"`. -/
def vpNameOK (t : Tar) (e : Emitted) : Prop :=
  ((joinSegs (normFold false [] (segsOf t.virtualPath)).reverse ++ [sep]).isPrefixOf
      e.header.name = true ∨
    e.header.name = joinSegs (normFold false [] (segsOf t.virtualPath)).reverse ∨
    e.header.name = joinSegs (normFold false [] (segsOf t.virtualPath)).reverse ++ [sep]) ∧
  (str "./").isPrefixOf e.header.name = false

theorem vpNameOK_of_name (t : Tar) (e : Emitted) (D : List Str) (hD : ∀ x ∈ D, goodSeg x)
    (hNV : normFold false [] (segsOf t.virtualPath) ≠ [])
    (hname :
      e.header.name = joinSegs ((normFold false [] (segsOf t.virtualPath)).reverse ++ D) ∨
      e.header.name =
        joinSegs ((normFold false [] (segsOf t.virtualPath)).reverse ++ D) ++ [sep]) :
    vpNameOK t e := by
  have hNVrev : (normFold false [] (segsOf t.virtualPath)).reverse ≠ [] := by simpa using hNV
  have hplain : ∀ x ∈ (normFold false [] (segsOf t.virtualPath)).reverse, plainSeg x :=
    fun x hx =>
      normalStack_elems (normFold_normal _ (segsOf_elems_plain _) [] normalStack_nil) x
        (List.mem_reverse.mp hx)
  constructor
  · match D, hD with
    | [], _ =>
      rcases hname with h | h
      · right
        left
        rw [h, List.append_nil]
      · right
        right
        rw [h, List.append_nil]
    | d :: D', hD =>
      left
      have hj : joinSegs ((normFold false [] (segsOf t.virtualPath)).reverse ++ d :: D') =
          joinSegs (normFold false [] (segsOf t.virtualPath)).reverse ++
            sep :: joinSegs (d :: D') :=
        joinSegs_append_ne _ _ hNVrev (by simp)
      rw [List.isPrefixOf_iff_prefix]
      rcases hname with h | h
      · rw [h, hj,
          show joinSegs (normFold false [] (segsOf t.virtualPath)).reverse ++
            sep :: joinSegs (d :: D') =
            (joinSegs (normFold false [] (segsOf t.virtualPath)).reverse ++ [sep]) ++
              joinSegs (d :: D') from by simp]
        exact List.prefix_append _ _
      · rw [h, hj,
          show (joinSegs (normFold false [] (segsOf t.virtualPath)).reverse ++
            sep :: joinSegs (d :: D')) ++ [sep] =
            (joinSegs (normFold false [] (segsOf t.virtualPath)).reverse ++ [sep]) ++
              (joinSegs (d :: D') ++ [sep]) from by simp]
        exact List.prefix_append _ _
  · match hrev : (normFold false [] (segsOf t.virtualPath)).reverse, hNVrev with
    | [], hNVrev => exact absurd rfl hNVrev
    | n0 :: NR, _ =>
      have h0 : plainSeg n0 := hplain n0 (hrev ▸ List.mem_cons_self _ _)
      obtain ⟨tl, htl⟩ := joinSegs_cons_eq_append n0 (NR ++ D)
      rcases hname with h | h
      · rw [h, hrev, List.cons_append, htl]
        exact dotSlash_not_prefix n0 tl h0
      · rw [h, hrev, List.cons_append, htl, List.append_assoc]
        exact dotSlash_not_prefix n0 (tl ++ [sep]) h0

theorem dotSlash_isPrefixOf (fn : Str) : (str "./").isPrefixOf (str "./" ++ fn) = true := by
  rw [List.isPrefixOf_iff_prefix]
  exact List.prefix_append _ _

theorem dotSlash_isPrefixOf_concat (fn tl : Str) :
    (str "./").isPrefixOf ((str "./" ++ fn) ++ tl) = true := by
  rw [List.isPrefixOf_iff_prefix, List.append_assoc]
  exact List.prefix_append _ _

mutual

/-- With no virtual prefix set, every emitted entry name begins with
`"./"` and directory entry names end with `"/"`. -/
theorem processEntry_names_novp (t : Tar) (hvp : t.virtualPath = []) (hl : HardLinks)
    (fn : Str) (f : FSTree) :
    ∀ e ∈ emitsOf (processEntry t hl fn f).2.1,
      (str "./").isPrefixOf e.header.name = true ∧
      (e.srcKind = .dir → e.header.name.getLast? = some sep) := by
  match f with
  | .node nm m cs =>
    intro e he
    have ih := processChildren_names_novp t hvp hl fn cs
    simp only [processEntry, hvp] at he
    rw [show (if ([] : Str) ≠ [] then clean (goJoin3 (str ".") [] (str "./" ++ fn))
        else str "./" ++ fn) = str "./" ++ fn by simp] at he
    split at he
    · simp [emitsOf] at he
    · split at he
      · -- directory
        rename_i hkind
        split at he
        · rw [emitsOf_cons_emit] at he
          rcases List.mem_cons.mp he with he | he
          · subst he
            exact ⟨dotSlash_isPrefixOf_concat fn [sep],
              fun _ => by simp [mkEmitted, List.getLast?_concat]⟩
          · simp [emitsOf] at he
        · rw [emitsOf_cons_emit, emitsOf_cons_readDir] at he
          rcases List.mem_cons.mp he with he | he
          · subst he
            exact ⟨dotSlash_isPrefixOf_concat fn [sep],
              fun _ => by simp [mkEmitted, List.getLast?_concat]⟩
          · exact ih e he
      · -- symlink
        rename_i hkind
        split at he
        · simp [emitsOf] at he
        · rw [emitsOf_cons_emit] at he
          rcases List.mem_cons.mp he with he | he
          · subst he
            exact ⟨dotSlash_isPrefixOf fn, fun hd => by simp [mkEmitted, hkind] at hd⟩
          · simp [emitsOf] at he
      · -- regular
        rename_i hkind
        split at he
        · split at he <;> rw [emitsOf_cons_emit] at he <;>
            rcases List.mem_cons.mp he with he | he
          · subst he
            exact ⟨dotSlash_isPrefixOf fn, fun hd => by simp [mkEmitted, hkind] at hd⟩
          · simp [emitsOf] at he
          · subst he
            exact ⟨dotSlash_isPrefixOf fn, fun hd => by simp [mkEmitted, hkind] at hd⟩
          · simp [emitsOf] at he
        · rw [emitsOf_cons_emit] at he
          rcases List.mem_cons.mp he with he | he
          · subst he
            exact ⟨dotSlash_isPrefixOf fn, fun hd => by simp [mkEmitted, hkind] at hd⟩
          · simp [emitsOf] at he
      · -- device
        rename_i hkind
        split at he
        · simp [emitsOf] at he
        · rw [emitsOf_cons_emit] at he
          rcases List.mem_cons.mp he with he | he
          · subst he
            refine ⟨?_, fun hd => by simp [mkEmitted, hkind] at hd⟩
            split <;> exact dotSlash_isPrefixOf fn
          · simp [emitsOf] at he
      · simp [emitsOf] at he
      · simp [emitsOf] at he

/-- The child-loop counterpart of `processEntry_names_novp`. -/
theorem processChildren_names_novp (t : Tar) (hvp : t.virtualPath = []) (hl : HardLinks)
    (dir : Str) (cs : List FSTree) :
    ∀ e ∈ emitsOf (processChildren t hl dir cs).2.1,
      (str "./").isPrefixOf e.header.name = true ∧
      (e.srcKind = .dir → e.header.name.getLast? = some sep) := by
  match cs with
  | [] =>
    intro e he
    simp [processChildren, emitsOf] at he
  | c :: rest =>
    intro e he
    have ih1 := processEntry_names_novp t hvp hl (goJoin2 dir c.name) c
    have ih2 := processChildren_names_novp t hvp
      (processEntry t hl (goJoin2 dir c.name) c).1 dir rest
    simp only [processChildren] at he
    split at he
    · exact ih1 e he
    · rw [emitsOf_append, List.mem_append] at he
      rcases he with he | he
      · exact ih1 e he
      · exact ih2 e he

end

mutual

/-- With a non-empty virtual prefix whose normalization is non-empty,
every emitted entry name obeys `vpNameOK` (the traversal position is the
rendered relative path of the good elements `D`). -/
theorem processEntry_names_vp (t : Tar) (hvp : t.virtualPath ≠ [])
    (hNV : normFold false [] (segsOf t.virtualPath) ≠ []) (hl : HardLinks)
    (D : List Str) (hD : ∀ x ∈ D, goodSeg x) (f : FSTree) (hwf : wfTreeB f = true) :
    ∀ e ∈ emitsOf (processEntry t hl (renderRel D) f).2.1, vpNameOK t e := by
  match f with
  | .node nm m cs =>
    intro e he
    have hwfc : wfChildrenB cs = true := hwf
    have ih := processChildren_names_vp t hvp hNV hl D hD cs hwfc
    simp only [processEntry] at he
    rw [if_pos hvp, vp_name_eq t.virtualPath D hD hNV] at he
    split at he
    · simp [emitsOf] at he
    · split at he
      · -- directory
        split at he
        · rw [emitsOf_cons_emit] at he
          rcases List.mem_cons.mp he with he | he
          · subst he
            exact vpNameOK_of_name t _ D hD hNV (Or.inr (by simp [mkEmitted]))
          · simp [emitsOf] at he
        · rw [emitsOf_cons_emit, emitsOf_cons_readDir] at he
          rcases List.mem_cons.mp he with he | he
          · subst he
            exact vpNameOK_of_name t _ D hD hNV (Or.inr (by simp [mkEmitted]))
          · exact ih e he
      · -- symlink
        split at he
        · simp [emitsOf] at he
        · rw [emitsOf_cons_emit] at he
          rcases List.mem_cons.mp he with he | he
          · subst he
            exact vpNameOK_of_name t _ D hD hNV (Or.inl (by simp [mkEmitted]))
          · simp [emitsOf] at he
      · -- regular
        split at he
        · split at he <;> rw [emitsOf_cons_emit] at he <;>
            rcases List.mem_cons.mp he with he | he
          · subst he
            exact vpNameOK_of_name t _ D hD hNV (Or.inl (by simp [mkEmitted]))
          · simp [emitsOf] at he
          · subst he
            exact vpNameOK_of_name t _ D hD hNV (Or.inl (by simp [mkEmitted]))
          · simp [emitsOf] at he
        · rw [emitsOf_cons_emit] at he
          rcases List.mem_cons.mp he with he | he
          · subst he
            exact vpNameOK_of_name t _ D hD hNV (Or.inl (by simp [mkEmitted]))
          · simp [emitsOf] at he
      · -- device
        split at he
        · simp [emitsOf] at he
        · rw [emitsOf_cons_emit] at he
          rcases List.mem_cons.mp he with he | he
          · subst he
            refine vpNameOK_of_name t _ D hD hNV (Or.inl ?_)
            split <;> simp [mkEmitted]
          · simp [emitsOf] at he
      · simp [emitsOf] at he
      · simp [emitsOf] at he

/-- The child-loop counterpart of `processEntry_names_vp`. -/
theorem processChildren_names_vp (t : Tar) (hvp : t.virtualPath ≠ [])
    (hNV : normFold false [] (segsOf t.virtualPath) ≠ []) (hl : HardLinks)
    (D : List Str) (hD : ∀ x ∈ D, goodSeg x) (cs : List FSTree)
    (hwf : wfChildrenB cs = true) :
    ∀ e ∈ emitsOf (processChildren t hl (renderRel D) cs).2.1, vpNameOK t e := by
  match cs with
  | [] =>
    intro e he
    simp [processChildren, emitsOf] at he
  | c :: rest =>
    intro e he
    obtain ⟨hg, hwf1, hwf2⟩ := wfChildrenB_cons hwf
    have hgood := goodSeg_of_goodNameB hg
    have hD2 : ∀ x ∈ D ++ [c.name], goodSeg x := by
      intro x hx
      rcases List.mem_append.mp hx with hx | hx
      · exact hD x hx
      · rw [List.mem_singleton.mp hx]
        exact hgood
    have ih1 := processEntry_names_vp t hvp hNV hl (D ++ [c.name]) hD2 c hwf1
    have ih2 := processChildren_names_vp t hvp hNV
      (processEntry t hl (goJoin2 (renderRel D) c.name) c).1 D hD rest hwf2
    rw [← goJoin2_renderRel D hD c.name hgood] at ih1
    simp only [processChildren] at he
    split at he
    · exact ih1 e he
    · rw [emitsOf_append, List.mem_append] at he
      rcases he with he | he
      · exact ih1 e he
      · exact ih2 e he

end

/-- **C1 (amended).** With no virtual prefix set, every emitted entry
name begins with `"./"` and directory entry names end with `"/"`.  With a
non-empty virtual prefix `P` (whose cleaned relative form is non-empty,
i.e. `P` does not collapse to `"."`), every emitted entry name begins
with `CleanRel(P) ++ "/"` or equals `CleanRel(P)` (the root entry, with
`"/"` appended when it is a directory) — where `CleanRel(P)` is the
path-cleaned relative form of `P` — and *no* emitted name begins with
`"./"`: the `"./P/"` form of the original claim never occurs, because
`filepath.Join`/`Clean` strip the leading `"./"`. -/
theorem entry_name_prefixes (t : Tar) (hl : HardLinks) (f : FSTree) :
    (t.virtualPath = [] →
      ∀ e ∈ emitsOf (processEntry t hl (str ".") f).2.1,
        (str "./").isPrefixOf e.header.name = true ∧
        (e.srcKind = .dir → e.header.name.getLast? = some sep)) ∧
    (t.virtualPath ≠ [] → normFold false [] (segsOf t.virtualPath) ≠ [] →
      wfTreeB f = true →
      ∀ e ∈ emitsOf (processEntry t hl (str ".") f).2.1, vpNameOK t e) := by
  constructor
  · intro hvp
    exact processEntry_names_novp t hvp hl (str ".") f
  · intro hvp hNV hwf
    have h := processEntry_names_vp t hvp hNV hl [] (by simp) f hwf
    rw [show renderRel [] = str "." from rfl] at h
    exact h

/-- **C1** (counterexample): running with virtual prefix `"v"` over the
fixture tree emits the names `v/`, `v/f`, `v/g`, `v/h` — none of which
begins with `"./v/"` as the claim requires (the `Join`/`Clean` pass
strips the leading `"./"`). -/
theorem entry_name_counterexample :
    ((emitsOf (Archive { tarFix with virtualPath := str "v" } (some treeFix)).1).map
      fun e => e.header.name) = [str "v/", str "v/f", str "v/g", str "v/h"] ∧
    ∀ n ∈ [str "v/", str "v/f", str "v/g", str "v/h"],
      (str "./v/").isPrefixOf n = false := by
  decide

/-- Witness for the amended C1 at concrete runs with and without the
virtual prefix `"v"`. -/
theorem entry_name_prefixes_witness :
    ((tarFix.virtualPath = []) ∧
      ∀ e ∈ emitsOf (processEntry tarFix [] (str ".") treeFix).2.1,
        (str "./").isPrefixOf e.header.name = true ∧
        (e.srcKind = .dir → e.header.name.getLast? = some sep)) ∧
    ((({ tarFix with virtualPath := str "v" } : Tar).virtualPath ≠ []) ∧
      (normFold false []
        (segsOf ({ tarFix with virtualPath := str "v" } : Tar).virtualPath) ≠ []) ∧
      wfTreeB treeFix = true ∧
      ∀ e ∈ emitsOf (processEntry { tarFix with virtualPath := str "v" } [] (str ".")
          treeFix).2.1,
        vpNameOK { tarFix with virtualPath := str "v" } e) :=
  ⟨⟨rfl, (entry_name_prefixes tarFix [] treeFix).1 rfl⟩,
   ⟨by decide, by decide, by decide,
    (entry_name_prefixes { tarFix with virtualPath := str "v" } [] treeFix).2
      (by decide) (by decide) (by decide)⟩⟩

/-! ## Claim C7 -/

/-- **C7.** For every visited path, exclusion is decided before
classification: an excluded path produces no event at all (no entry for
the object, no directory listing, hence no entry for any descendant and
no enumeration of children) and leaves the hard-link table untouched, no
matter what the object is; and `shouldBeExcluded` is exactly "some
pattern glob-matches the full relative path or its final component"
(errors of the matcher discarded). -/
theorem exclusion_before_classification (t : Tar) (hl : HardLinks) (fn : Str) (f : FSTree)
    (name : Str) :
    (t.shouldBeExcluded fn = true → processEntry t hl fn f = (hl, [], none)) ∧
    (t.shouldBeExcluded name =
      t.excludedPaths.any fun p => (goMatch p name).1 || (goMatch p (filepathBase name)).1) := by
  constructor
  · intro h
    match f with
    | .node nm m cs => simp [processEntry, h]
  · rw [Tar.shouldBeExcluded]
    induction t.excludedPaths with
    | nil => simp [shouldBeExcludedList]
    | cons p ps ih =>
      cases h1 : (goMatch p name).1 <;> cases h2 : (goMatch p (filepathBase name)).1 <;>
        simp [shouldBeExcludedList, h1, h2, ih]

/-- Witness for C7: the excluded directory `sub` (with a child that would
otherwise be emitted) produces no events and no error, and the matcher
characterization holds at `*.tmp` versus `drop.tmp`. -/
theorem exclusion_before_classification_witness :
    (({ tarFix with excludedPaths := [str "sub"] } : Tar).shouldBeExcluded (str "sub")
        = true) ∧
    processEntry { tarFix with excludedPaths := [str "sub"] } [] (str "sub")
        (.node (str "sub") dirMeta [.node (str "x") (regMeta 3 1) []]) = ([], [], none) ∧
    ({ tarFix with excludedPaths := [str "*.tmp"] } : Tar).shouldBeExcluded (str "drop.tmp")
      = [str "*.tmp"].any
          fun p => (goMatch p (str "drop.tmp")).1 ||
            (goMatch p (filepathBase (str "drop.tmp"))).1 :=
  ⟨by decide,
   (exclusion_before_classification { tarFix with excludedPaths := [str "sub"] } []
     (str "sub") (.node (str "sub") dirMeta [.node (str "x") (regMeta 3 1) []])
     (str "sub")).1 (by decide),
   (exclusion_before_classification { tarFix with excludedPaths := [str "*.tmp"] } []
     (str "x") (.node (str "x") (regMeta 3 1) []) (str "drop.tmp")).2⟩

/-! ## Claim C10

A malformed glob pattern never matches: the chunk parser's error verdict
depends only on the pattern (never on the name), and a `true` match must
parse every chunk of the pattern without error, so a pattern that errors
on any name matches no name. -/

theorem parseRanges_fst_congr : ∀ (fuel : Nat) (started : Bool) (chunk : Str)
    (r1 r2 : Char) (m1 m2 : Bool),
    (parseRanges fuel r1 m1 started chunk).map Prod.fst =
      (parseRanges fuel r2 m2 started chunk).map Prod.fst := by
  intro fuel
  induction fuel with
  | zero =>
    intro started chunk r1 r2 m1 m2
    rfl
  | succ fuel ih =>
    intro started chunk r1 r2 m1 m2
    simp only [parseRanges]
    split
    · rfl
    · cases hE : getEsc chunk with
      | none => rfl
      | some lo1 =>
        obtain ⟨lo, ch1⟩ := lo1
        dsimp only
        cases hHi : (if ch1.head? = some '-' then getEsc ch1.tail else some (lo, ch1)) with
        | none => rfl
        | some hi2 =>
          obtain ⟨hi, ch2⟩ := hi2
          dsimp only
          exact ih true ch2 r1 r2 _ _

theorem parseRanges_none_congr {fuel : Nat} {st : Bool} {chunk : Str} {r1 : Char}
    {m1 : Bool} (r2 : Char) (m2 : Bool)
    (h : parseRanges fuel r1 m1 st chunk = none) :
    parseRanges fuel r2 m2 st chunk = none := by
  have hP := parseRanges_fst_congr fuel st chunk r1 r2 m1 m2
  rw [h] at hP
  cases hq : parseRanges fuel r2 m2 st chunk with
  | none => rfl
  | some x =>
    rw [hq] at hP
    cases hP

theorem parseRanges_some_congr {fuel : Nat} {st : Bool} {chunk : Str} {r1 : Char}
    {m1 : Bool} {ch2 : Str} {mt : Bool} (r2 : Char) (m2 : Bool)
    (h : parseRanges fuel r1 m1 st chunk = some (ch2, mt)) :
    ∃ mt2, parseRanges fuel r2 m2 st chunk = some (ch2, mt2) := by
  have hP := parseRanges_fst_congr fuel st chunk r1 r2 m1 m2
  rw [h] at hP
  cases hq : parseRanges fuel r2 m2 st chunk with
  | none =>
    rw [hq] at hP
    cases hP
  | some x =>
    obtain ⟨ch2x, mtx⟩ := x
    rw [hq] at hP
    have hc : ch2 = ch2x := by simpa using hP
    refine ⟨mtx, ?_⟩
    rw [hc]

theorem matchChunkGo_none_congr : ∀ (fuel : Nat) (chunk s1 s2 : Str) (f1 f2 : Bool),
    matchChunkGo fuel chunk s1 f1 = none → matchChunkGo fuel chunk s2 f2 = none := by
  intro fuel
  induction fuel with
  | zero =>
    intro chunk s1 s2 f1 f2 _
    rfl
  | succ fuel ih =>
    intro chunk s1 s2 f1 f2 h
    match chunk with
    | [] =>
      rw [matchChunkGo] at h
      split at h <;> cases h
    | c :: crest =>
      simp only [matchChunkGo] at h ⊢
      by_cases hc1 : c = '['
      · rw [if_pos hc1] at h ⊢
        split at h <;> rename_i hr1
        · rw [parseRanges_none_congr _ _ hr1]
        · rename_i ch2 mtch
          obtain ⟨mt2, hr2⟩ := parseRanges_some_congr
            (if (f2 || s2.isEmpty) = true then Char.ofNat 0 else s2.headD (Char.ofNat 0))
            false hr1
          rw [hr2]
          dsimp only
          exact ih ch2 _ _ _ _ h
      · rw [if_neg hc1] at h ⊢
        by_cases hc2 : c = '?'
        · rw [if_pos hc2] at h ⊢
          have hrec : ∃ sx fx, matchChunkGo fuel crest sx fx = none := by
            split at h
            · exact ⟨s1, _, h⟩
            · split at h
              · exact ⟨s1.tail, true, h⟩
              · exact ⟨s1.tail, _, h⟩
          obtain ⟨sx, fx, hrec⟩ := hrec
          split
          · exact ih crest _ _ _ _ hrec
          · split
            · exact ih crest _ _ _ _ hrec
            · exact ih crest _ _ _ _ hrec
        · rw [if_neg hc2] at h ⊢
          by_cases hc3 : c = '\\'
          · rw [if_pos hc3] at h ⊢
            cases crest with
            | nil => rfl
            | cons d crest2 =>
              dsimp only at h ⊢
              have hrec : ∃ sx fx, matchChunkGo fuel crest2 sx fx = none := by
                split at h
                · exact ⟨s1, _, h⟩
                · split at h
                  · exact ⟨s1.tail, _, h⟩
                  · exact ⟨s1.tail, true, h⟩
              obtain ⟨sx, fx, hrec⟩ := hrec
              split
              · exact ih crest2 _ _ _ _ hrec
              · split
                · exact ih crest2 _ _ _ _ hrec
                · exact ih crest2 _ _ _ _ hrec
          · rw [if_neg hc3] at h ⊢
            have hrec : ∃ sx fx, matchChunkGo fuel crest sx fx = none := by
              split at h
              · exact ⟨s1, _, h⟩
              · split at h
                · exact ⟨s1.tail, _, h⟩
                · exact ⟨s1.tail, true, h⟩
            obtain ⟨sx, fx, hrec⟩ := hrec
            split
            · exact ih crest _ _ _ _ hrec
            · split
              · exact ih crest _ _ _ _ hrec
              · exact ih crest _ _ _ _ hrec

theorem matchChunk_none_congr {c s1 : Str} (s2 : Str) (h : matchChunk c s1 = none) :
    matchChunk c s2 = none :=
  matchChunkGo_none_congr (c.length + 1) c s1 s2 false false h

/-- A pattern is malformed when the embedded `filepath.Match` reports
`ErrBadPattern` for some name. -/
def badPattern (p : Str) : Prop := ∃ n, (goMatch p n).2 = true

theorem dropStars_rest_le (p : Str) : (dropStars p).2.length ≤ p.length := by
  match p with
  | [] => simp [dropStars]
  | c :: rest =>
    by_cases hc : c = '*'
    · have ih := dropStars_rest_le rest
      simp only [dropStars, if_pos hc, List.length_cons]
      omega
    · simp [dropStars, hc]

theorem scanBody_rest_le (ir : Bool) (s : Str) : (scanBody ir s).2.length ≤ s.length := by
  match s with
  | [] => simp [scanBody]
  | c :: rest =>
    rw [scanBody.eq_def]
    dsimp only
    by_cases h1 : c = '\\'
    · rw [if_pos h1]
      match rest with
      | [] => simp
      | d :: rest2 =>
        have ih := scanBody_rest_le ir rest2
        simp only [List.length_cons]
        omega
    · rw [if_neg h1]
      by_cases h2 : c = '['
      · have ih := scanBody_rest_le true rest
        rw [if_pos h2]
        simp only [List.length_cons]
        omega
      · rw [if_neg h2]
        by_cases h3 : c = ']'
        · have ih := scanBody_rest_le false rest
          rw [if_pos h3]
          simp only [List.length_cons]
          omega
        · rw [if_neg h3]
          by_cases h4 : (c = '*' && !ir) = true
          · rw [if_pos h4]
          · have ih := scanBody_rest_le ir rest
            rw [if_neg h4]
            simp only [List.length_cons]
            omega

theorem scanBody_rest_lt (c : Char) (rest : Str) (hc : c ≠ '*') :
    (scanBody false (c :: rest)).2.length < (c :: rest).length := by
  rw [scanBody.eq_def]
  dsimp only
  by_cases h1 : c = '\\'
  · rw [if_pos h1]
    match rest with
    | [] => simp
    | d :: rest2 =>
      have hle := scanBody_rest_le false rest2
      simp only [List.length_cons]
      omega
  · rw [if_neg h1]
    by_cases h2 : c = '['
    · have hle := scanBody_rest_le true rest
      rw [if_pos h2]
      simp only [List.length_cons]
      omega
    · rw [if_neg h2]
      by_cases h3 : c = ']'
      · have hle := scanBody_rest_le false rest
        rw [if_pos h3]
        simp only [List.length_cons]
        omega
      · rw [if_neg h3]
        rw [if_neg (by simp [hc])]
        have hle := scanBody_rest_le false rest
        simp only [List.length_cons]
        omega

/-- Each `matchLoop` step strictly shrinks the pattern: the remaining
pattern returned by `scanChunk` is shorter than its input. -/
theorem scanChunk_rest_lt (p : Str) (hp : p ≠ []) : (scanChunk p).2.2.length < p.length := by
  match p with
  | c :: rest =>
    show (scanBody false (dropStars (c :: rest)).2).2.length < (c :: rest).length
    by_cases hc : c = '*'
    · have h1 := dropStars_rest_le rest
      have h2 := scanBody_rest_le false (dropStars rest).2
      simp only [dropStars, if_pos hc, List.length_cons]
      omega
    · simp only [dropStars, if_neg hc]
      exact scanBody_rest_lt c rest hc

/-- If the `star` retry loop errors, either the chunk itself is bad
(errors on some name) or the recursive `matchLoop` on the remaining
pattern errors. -/
theorem starLoop_err_cases : ∀ (fuel : Nat) (c r nm : Str),
    (starLoop fuel c r nm).2 = true →
    (∃ s, matchChunk c s = none) ∨ ∃ fe te, (matchLoop fe r te).2 = true := by
  intro fuel
  induction fuel with
  | zero =>
    intro c r nm h
    simp [starLoop] at h
  | succ fuel ih =>
    intro c r nm h
    match nm with
    | [] => simp [starLoop] at h
    | c0 :: nrest =>
      rw [starLoop] at h
      split at h
      · simp at h
      · split at h
        · rename_i hm
          exact Or.inl ⟨nrest, hm⟩
        · rename_i t hm
          split at h
          · exact ih c r nrest h
          · exact Or.inr ⟨fuel, t, h⟩
        · exact ih c r nrest h

/-- If the `star` retry loop reports a match, the recursive `matchLoop`
on the remaining pattern matched for some fuel and name tail. -/
theorem starLoop_matched_cases : ∀ (fuel : Nat) (c r nm : Str),
    (starLoop fuel c r nm).1 = true → ∃ fm tm, (matchLoop fm r tm).1 = true := by
  intro fuel
  induction fuel with
  | zero =>
    intro c r nm h
    simp [starLoop] at h
  | succ fuel ih =>
    intro c r nm h
    match nm with
    | [] => simp [starLoop] at h
    | c0 :: nrest =>
      rw [starLoop] at h
      split at h
      · simp at h
      · split at h
        · simp at h
        · rename_i t hm
          split at h
          · exact ih c r nrest h
          · exact ⟨fuel, t, h⟩
        · exact ih c r nrest h

/-- Inversion of an erroring `matchLoop` step: either the chunk errors on
the current name, or `matchLoop` errors on the remaining pattern. -/
theorem matchLoop_err_inv (f : Nat) (p n : Str) (hp : ¬p = [])
    (hsh : ¬((scanChunk p).1 && (scanChunk p).2.1.isEmpty) = true)
    (h : (matchLoop (f + 1) p n).2 = true) :
    matchChunk (scanChunk p).2.1 n = none ∨
      ∃ fe te, (matchLoop fe (scanChunk p).2.2 te).2 = true := by
  rw [matchLoop] at h
  rw [if_neg hp, if_neg hsh] at h
  split at h
  · rename_i hm
    exact Or.inl hm
  · rename_i hm
    split at h
    · rcases starLoop_err_cases f (scanChunk p).2.1 (scanChunk p).2.2 n h with ⟨s, hs⟩ | he
      · exact Or.inl (matchChunk_none_congr n hs)
      · exact Or.inr he
    · simp at h
  · rename_i t hm
    split at h
    · exact Or.inr ⟨f, t, h⟩
    · split at h
      · rcases starLoop_err_cases f (scanChunk p).2.1 (scanChunk p).2.2 n h with ⟨s, hs⟩ | he
        · exact Or.inl (matchChunk_none_congr n hs)
        · exact Or.inr he
      · simp at h

/-- Inversion of a matching `matchLoop` step with a nonempty pattern and
no empty-star shortcut: `matchLoop` matched on the remaining pattern. -/
theorem matchLoop_matched_inv (f : Nat) (p n : Str) (hp : ¬p = [])
    (hsh : ¬((scanChunk p).1 && (scanChunk p).2.1.isEmpty) = true)
    (h : (matchLoop (f + 1) p n).1 = true) :
    ∃ fm tm, (matchLoop fm (scanChunk p).2.2 tm).1 = true := by
  rw [matchLoop] at h
  rw [if_neg hp, if_neg hsh] at h
  split at h
  · simp at h
  · split at h
    · exact starLoop_matched_cases f (scanChunk p).2.1 (scanChunk p).2.2 n h
    · simp at h
  · rename_i t hm
    split at h
    · exact ⟨f, t, h⟩
    · split at h
      · exact starLoop_matched_cases f (scanChunk p).2.1 (scanChunk p).2.2 n h
      · simp at h

/-- The error verdict of the embedded `filepath.Match` loop depends only
on the pattern: a pattern cannot both error on one name and match
another, whatever the fuels. -/
theorem matchLoop_err_matched : ∀ (k : Nat) (p : Str), p.length ≤ k →
    ∀ (f1 f2 : Nat) (n1 n2 : Str),
      (matchLoop f1 p n1).2 = true → (matchLoop f2 p n2).1 = true → False := by
  intro k
  induction k with
  | zero =>
    intro p hp f1 f2 n1 n2 h1 h2
    have hpe : p = [] := List.length_eq_zero.mp (Nat.le_zero.mp hp)
    subst hpe
    match f1 with
    | 0 => simp [matchLoop] at h1
    | f1 + 1 =>
      rw [matchLoop, if_pos rfl] at h1
      simp at h1
  | succ k ih =>
    intro p hp f1 f2 n1 n2 h1 h2
    match f1, f2 with
    | 0, _ => simp [matchLoop] at h1
    | _ + 1, 0 => simp [matchLoop] at h2
    | f1 + 1, f2 + 1 =>
      by_cases hpe : p = []
      · subst hpe
        rw [matchLoop, if_pos rfl] at h1
        simp at h1
      · by_cases hsh : ((scanChunk p).1 && (scanChunk p).2.1.isEmpty) = true
        · rw [matchLoop, if_neg hpe, if_pos hsh] at h1
          simp at h1
        · have hrlen : (scanChunk p).2.2.length ≤ k := by
            have := scanChunk_rest_lt p hpe
            omega
          rcases matchLoop_err_inv f1 p n1 hpe hsh h1 with hnone | ⟨fe, te, hE⟩
          · rw [matchLoop, if_neg hpe, if_neg hsh] at h2
            rw [matchChunk_none_congr n2 hnone] at h2
            simp at h2
          · obtain ⟨fm, tm, hM⟩ := matchLoop_matched_inv f2 p n2 hpe hsh h2
            exact ih (scanChunk p).2.2 hrlen fe fm te tm hE hM

/-- A malformed pattern never matches any name. -/
theorem goMatch_bad_never_matches (p : Str) (hb : badPattern p) (n : Str) :
    (goMatch p n).1 = false := by
  obtain ⟨n0, h0⟩ := hb
  by_contra hcon
  rw [Bool.not_eq_false] at hcon
  simp only [goMatch] at h0 hcon
  exact matchLoop_err_matched p.length p (le_refl _) _ _ n0 n h0 hcon

/-- **C10.** A syntactically malformed exclusion pattern — one on which
the embedded `filepath.Match` reports `ErrBadPattern` for some name —
never causes the run to fail (the exclusion test has no error channel:
the matcher's error returns are discarded by the `match, _ :=`
assignments) and never excludes any path: the pattern matches no name,
neither as full path nor as basename, so deleting it from the exclusion
list leaves every exclusion verdict unchanged. -/
theorem malformed_pattern_excludes_nothing (p : Str) (hb : badPattern p)
    (ps1 ps2 : List Str) (name : Str) :
    shouldBeExcludedList (ps1 ++ p :: ps2) name = shouldBeExcludedList (ps1 ++ ps2) name := by
  induction ps1 with
  | nil =>
    simp only [List.nil_append, shouldBeExcludedList]
    rw [goMatch_bad_never_matches p hb name, goMatch_bad_never_matches p hb (filepathBase name)]
    simp
  | cons q qs ih =>
    simp only [List.cons_append, shouldBeExcludedList, List.append_eq]
    rw [ih]

/-- Witness for C10 at a concrete input: the pattern `"["` (unterminated
character class) errors on the name `"x"`, and its presence in the
exclusion list changes no verdict. -/
theorem malformed_pattern_excludes_nothing_witness :
    badPattern (str "[") ∧
    shouldBeExcludedList [str "["] (str "x") = shouldBeExcludedList [] (str "x") :=
  ⟨⟨str "x", by decide⟩,
   malformed_pattern_excludes_nothing (str "[") ⟨str "x", by decide⟩ [] [] (str "x")⟩

/-- Witness for the amended C2 at concrete inputs: a target whose cleaned
absolute form does not contain the root is stored unchanged, and the
under-root implication fires for a target inside the root. -/
theorem cleanLinkName_amended_witness :
    (strContains (resolvedTarget (str "/a") (str "b") (str "/x/b/y") (str "/w")) (str "/a")
        = false) ∧
    cleanLinkName (str "/a") (str "b") (some (str "/x/b/y")) (str "/w") =
      .ok (resolvedTarget (str "/a") (str "b") (str "/x/b/y") (str "/w")) ∧
    underRootB (resolvedTarget (str "/a") (str "b") (str "c") (str "/w")) (str "/a") = true ∧
    strContains (resolvedTarget (str "/a") (str "b") (str "c") (str "/w")) (str "/a") = true :=
  ⟨by decide,
   (cleanLinkName_amended (str "/a") (str "b") (str "/x/b/y") (str "/w")).1 (by decide),
   by decide,
   (cleanLinkName_amended (str "/a") (str "b") (str "c") (str "/w")).2.2 (by decide)⟩

end Tarhelper
